import Mathlib

/-!
Verification development for the treemap repository (`tree_data.py`).

The data model and the operations below are a shallow embedding of the class
`AbstractTree` of `src/tree_data.py`: the mutable tree becomes an inductive
value, the parent back-reference becomes a boolean flag `parent_set` (the
reference, in every reachable state, points at the structural parent, so only
its presence needs to be tracked) together with path-indexed state-passing
versions of the mutating methods, Python's float arithmetic in the layout and
resize computations becomes exact arithmetic over `Int` and `Rat`, and a
method call that raises an exception is modelled by `none` / `Except.error`.
-/

set_option maxHeartbeats 1000000

/-- RGB colour triple, as produced by `randint(0, 255)` three times. -/
abbrev Colour := Nat × Nat × Nat

/-- A pygame-style rectangle `(x, y, width, height)`. -/
structure Rect where
  x : Int
  y : Int
  w : Int
  h : Int
deriving DecidableEq, Repr

/-- One output entry of the treemap algorithm: a rectangle and a colour. -/
abbrev Entry := Rect × Colour

/-- Shallow embedding of `AbstractTree` (`src/tree_data.py`).
`root` is `_root` (`none` denotes an empty node), `subtrees` is `_subtrees`,
`data_size` is `data_size`, `colour` is `colour`, and `parent_set` records
whether `_parent_tree` is non-`None` (when it is set it always points at the
structural parent, so a boolean suffices). -/
inductive ATree : Type where
  | mk (root : Option String) (subtrees : List ATree) (data_size : Int)
      (colour : Colour) (parent_set : Bool) : ATree

def ATree.root : ATree → Option String
  | .mk r _ _ _ _ => r

def ATree.subtrees : ATree → List ATree
  | .mk _ s _ _ _ => s

def ATree.data_size : ATree → Int
  | .mk _ _ d _ _ => d

def ATree.colour : ATree → Colour
  | .mk _ _ _ c _ => c

def ATree.parent_set : ATree → Bool
  | .mk _ _ _ _ p => p

/-- Sum of the `data_size` attributes of a list of trees. -/
def sizesSum (l : List ATree) : Int :=
  (l.map ATree.data_size).sum

/-- Setting `subtree._parent_tree = self` on a direct child (only the
presence flag is tracked). -/
def setParentTop : ATree → ATree
  | .mk r s d c _ => .mk r s d c true

/-- `AbstractTree.__init__(root, subtrees, data_size)`: `self.data_size` is
initialised with the `data_size` argument and then, when `subtrees` is
non-empty, the loop adds each subtree's `data_size` to it and sets each
subtree's parent reference.  The freshly constructed node has no parent.
The random colour is passed in explicitly. -/
def init (root : Option String) (subtrees : List ATree) (data_size : Int)
    (colour : Colour) : ATree :=
  if subtrees.isEmpty then .mk root subtrees data_size colour false
  else .mk root (subtrees.map setParentTop) (data_size + sizesSum subtrees) colour false

/-- `AbstractTree.is_empty`. -/
def is_empty (t : ATree) : Bool :=
  t.root = none

/-- The loop body of `AbstractTree.generate_treemap` for the `w > h` branch
(vertical strips).  `S` is `self.data_size`, `(yy, hh)` the fixed vertical
extent, `ww` the total width, `iniX` the saved `ini_x`.  The loop state is the
remaining suffix of `self._subtrees` (carried with membership proofs so that
the recursion into `rec` is well founded), the running `x`, the accumulated
`result`, and `last_tree` (`none` models the Python initialiser
`(None, 0, 0)`; the components are the subtree, `len(sub_treemap)` and the
saved `x`).  The final iteration (`i == len(self._subtrees) - 1`) uses the
remaining width and then unconditionally re-renders the last subtree that
produced output, stretched over the remaining extent; reaching that block
with `last_tree[0] == None` raises `AttributeError` in Python, modelled by
`none`. -/
def genLoopV (S yy hh ww iniX : Int) (subs : List ATree)
    (rec : (s : ATree) → s ∈ subs → Rect → Option (List Entry)) :
    List {s : ATree // s ∈ subs} → Int → List Entry →
      Option ({s : ATree // s ∈ subs} × Nat × Int) → Option (List Entry)
  | [], _, res, _ => some res
  | [s], xx, res, lastT => do
      let localW := ww - xx + iniX
      let sub ← rec s.val s.property ⟨xx, yy, localW, hh⟩
      let res := res ++ sub
      let lastT := if sub.isEmpty then lastT else some (s, sub.length, xx)
      match lastT with
      | none => none
      | some (lt, cnt, sx) => do
          let res := res.take (res.length - cnt)
          let localW2 := ww - sx + iniX
          let sub2 ← rec lt.val lt.property ⟨sx, yy, localW2, hh⟩
          some (res ++ sub2)
  | s :: s2 :: rest, xx, res, lastT => do
      let localW := s.val.data_size * ww / S
      let sub ← rec s.val s.property ⟨xx, yy, localW, hh⟩
      let res := res ++ sub
      let lastT := if sub.isEmpty then lastT else some (s, sub.length, xx)
      genLoopV S yy hh ww iniX subs rec (s2 :: rest) (xx + localW) res lastT

/-- The loop body of `AbstractTree.generate_treemap` for the `w <= h` branch
(horizontal strips); mirror image of `genLoopV` with the roles of `x`/`w`
and `y`/`h` exchanged. -/
def genLoopH (S xx ww hh iniY : Int) (subs : List ATree)
    (rec : (s : ATree) → s ∈ subs → Rect → Option (List Entry)) :
    List {s : ATree // s ∈ subs} → Int → List Entry →
      Option ({s : ATree // s ∈ subs} × Nat × Int) → Option (List Entry)
  | [], _, res, _ => some res
  | [s], yy, res, lastT => do
      let localH := hh - yy + iniY
      let sub ← rec s.val s.property ⟨xx, yy, ww, localH⟩
      let res := res ++ sub
      let lastT := if sub.isEmpty then lastT else some (s, sub.length, yy)
      match lastT with
      | none => none
      | some (lt, cnt, sy) => do
          let res := res.take (res.length - cnt)
          let localH2 := hh - sy + iniY
          let sub2 ← rec lt.val lt.property ⟨xx, sy, ww, localH2⟩
          some (res ++ sub2)
  | s :: s2 :: rest, yy, res, lastT => do
      let localH := s.val.data_size * hh / S
      let sub ← rec s.val s.property ⟨xx, yy, ww, localH⟩
      let res := res ++ sub
      let lastT := if sub.isEmpty then lastT else some (s, sub.length, yy)
      genLoopH S xx ww hh iniY subs rec (s2 :: rest) (yy + localH) res lastT

/-- `AbstractTree.generate_treemap(rect)`.  Python's
`int(subtree.data_size / self.data_size * w)` (non-negative in every
reachable state) is modelled exactly as `subtree.data_size * w / S` with
integer floor division.  `none` models an uncaught Python exception. -/
def generate_treemap (t : ATree) (r : Rect) : Option (List Entry) :=
  if t.data_size = 0 then some []
  else if t.subtrees.isEmpty then some [(r, t.colour)]
  else if r.w > r.h then
    genLoopV t.data_size r.y r.h r.w r.x t.subtrees
      (fun s _ r' => generate_treemap s r') t.subtrees.attach r.x [] none
  else
    genLoopH t.data_size r.x r.w r.h r.y t.subtrees
      (fun s _ r' => generate_treemap s r') t.subtrees.attach r.y [] none
termination_by sizeOf t
decreasing_by
  all_goals
    cases t with
    | mk root subs d c p =>
      simp only [ATree.subtrees] at *
      have h1 := List.sizeOf_lt_of_mem (by assumption : s ∈ subs)
      simp only [ATree.mk.sizeOf_spec]
      omega

/-- The loop body of `AbstractTree.leaf_at` for the `w > h` branch.  The loop
state is the running `x`, `last_tree` (`(tree, x, y)` components, `none`
models the initial `(None, 0, 0)`) and `result`.  Each iteration first
returns `result` if one was found in the previous iteration, computes the
proportional `local_w` for every index, queries the subtree when its
`data_size > 0`, and at the final index unconditionally overwrites `result`
by re-querying the last subtree that had positive size over the stretched
rectangle (Python raises `AttributeError` there when `last_tree[0]` is still
`None`, modelled by the outer `none`). -/
def leafLoopV (S yy hh ww iniX : Int) (pos : Int × Int) (subs : List ATree)
    (rec : (s : ATree) → s ∈ subs → Rect → Option (Option ATree)) :
    List {s : ATree // s ∈ subs} → Int →
      Option ({s : ATree // s ∈ subs} × Int × Int) → Option ATree →
      Option (Option ATree)
  | [], _, _, result => some result
  | s :: rest, xx, lastT, result =>
      if result.isSome then some result else do
      let localW := s.val.data_size * ww / S
      let (lastT, result) ←
        if s.val.data_size > 0 then do
          let r0 ← rec s.val s.property ⟨xx, yy, localW, hh⟩
          pure (some (s, xx, yy), r0)
        else pure (lastT, result)
      match rest with
      | _ :: _ => leafLoopV S yy hh ww iniX pos subs rec rest (xx + localW) lastT result
      | [] =>
        match lastT with
        | none => none
        | some (lt, lx, ly) => do
            let localW2 := ww - lx + iniX
            let result2 ← rec lt.val lt.property ⟨lx, ly, localW2, hh⟩
            some result2

/-- The loop body of `AbstractTree.leaf_at` for the `w <= h` branch; mirror
image of `leafLoopV`. -/
def leafLoopH (S xx ww hh iniY : Int) (pos : Int × Int) (subs : List ATree)
    (rec : (s : ATree) → s ∈ subs → Rect → Option (Option ATree)) :
    List {s : ATree // s ∈ subs} → Int →
      Option ({s : ATree // s ∈ subs} × Int × Int) → Option ATree →
      Option (Option ATree)
  | [], _, _, result => some result
  | s :: rest, yy, lastT, result =>
      if result.isSome then some result else do
      let localH := s.val.data_size * hh / S
      let (lastT, result) ←
        if s.val.data_size > 0 then do
          let r0 ← rec s.val s.property ⟨xx, yy, ww, localH⟩
          pure (some (s, xx, yy), r0)
        else pure (lastT, result)
      match rest with
      | _ :: _ => leafLoopH S xx ww hh iniY pos subs rec rest (yy + localH) lastT result
      | [] =>
        match lastT with
        | none => none
        | some (lt, lx, ly) => do
            let localH2 := hh - ly + iniY
            let result2 ← rec lt.val lt.property ⟨lx, ly, ww, localH2⟩
            some result2

/-- `AbstractTree.leaf_at(pos, rect)`.  The inner `Option ATree` is the
Python return value (`None` for "no leaf here"); the outer `Option` models an
uncaught exception.  Leaf containment is inclusive of all four edges, as in
`x <= pos[0] <= x + w and y <= pos[1] <= y + h`. -/
def leaf_at (t : ATree) (pos : Int × Int) (r : Rect) : Option (Option ATree) :=
  if t.data_size = 0 then some none
  else if t.subtrees.isEmpty then
    some (if r.x ≤ pos.1 ∧ pos.1 ≤ r.x + r.w ∧ r.y ≤ pos.2 ∧ pos.2 ≤ r.y + r.h
          then some t else none)
  else if r.w > r.h then
    leafLoopV t.data_size r.y r.h r.w r.x pos t.subtrees
      (fun s _ r' => leaf_at s pos r') t.subtrees.attach r.x none none
  else
    leafLoopH t.data_size r.x r.w r.h r.y pos t.subtrees
      (fun s _ r' => leaf_at s pos r') t.subtrees.attach r.y none none
termination_by sizeOf t
decreasing_by
  all_goals
    cases t with
    | mk root subs d c p =>
      simp only [ATree.subtrees] at *
      have h1 := List.sizeOf_lt_of_mem (by assumption : s ∈ subs)
      simp only [ATree.mk.sizeOf_spec]
      omega

/-! ### Mutation operations

A node of a tree is addressed by its path: the list of child indices from
the root.  `nodeAt t p` looks the node up; the mutating methods of
`AbstractTree` become functions from the whole tree (plus the path of the
receiver) to the whole tree. -/

/-- The node of `t` addressed by path `p` (indices into `_subtrees`). -/
def nodeAt (t : ATree) (p : List Nat) : Option ATree :=
  match p with
  | [] => some t
  | i :: p' => t.subtrees[i]? >>= fun s => nodeAt s p'

/-- Replace the node addressed by `p` by `f` of it (its ancestors'
other attributes are untouched). -/
def modifyAt (t : ATree) (p : List Nat) (f : ATree → ATree) : Option ATree :=
  match t, p with
  | t, [] => some (f t)
  | .mk r subs d c ps, i :: p' => do
      let s ← subs[i]?
      let s' ← modifyAt s p' f
      some (.mk r (subs.set i s') d c ps)

/-- `AbstractTree.update_size(size_change)` called on the node at `p`:
adds `size_change` to that node's `data_size` and then recurses into the
parent while the current node's `_parent_tree` is set.  Returns the new tree
together with the flag telling the caller one level up whether to keep
propagating.  `none` signals an invalid path. -/
def update_size (t : ATree) (p : List Nat) (size_change : Int) :
    Option (ATree × Bool) :=
  match t, p with
  | .mk r subs d c ps, [] => some (.mk r subs (d + size_change) c ps, ps)
  | .mk r subs d c ps, i :: p' => do
      let s ← subs[i]?
      let (s', cont) ← update_size s p' size_change
      if cont then some (.mk r (subs.set i s') (d + size_change) c ps, ps)
      else some (.mk r (subs.set i s') d c ps, false)

/-- `update_size` forgetting the propagation flag. -/
def updateSizeAt (t : ATree) (p : List Nat) (size_change : Int) : Option ATree :=
  (update_size t p size_change).map Prod.fst

/-- `AbstractTree.delete()` called on the node at `p`.  The method performs
no precondition check: it sets `self._root = None`, then calls
`self._parent_tree.update_size(-self.data_size)` — which raises
`AttributeError` when `_parent_tree` is `None`, leaving the already-cleared
label behind (that partially mutated state is returned as `Except.error`) —
then clears `self._parent_tree` and sets `self.data_size = 0`.  The outer
`none` covers an invalid path, and also the state `p = []` with
`parent_set = true`, which no reachable tree exhibits (the root of the whole
tree has no structural parent object the model could propagate into). -/
-- `self._root = None` on a single node.
def clearRootF (s : ATree) : ATree :=
  .mk none s.subtrees s.data_size s.colour s.parent_set

/-- `self._parent_tree = None` on a single node. -/
def clearParentF (s : ATree) : ATree :=
  .mk s.root s.subtrees s.data_size s.colour false

/-- `self.data_size = 0` on a single node. -/
def zeroSizeF (s : ATree) : ATree :=
  .mk s.root s.subtrees 0 s.colour s.parent_set

def delete (t : ATree) (p : List Nat) : Option (Except ATree ATree) := do
  let nd ← nodeAt t p
  let t1 ← modifyAt t p clearRootF
  if nd.parent_set then
    match p with
    | [] => none
    | _ :: _ => do
      let t2 ← updateSizeAt t1 p.dropLast (-nd.data_size)
      let t3 ← modifyAt t2 p clearParentF
      let t4 ← modifyAt t3 p zeroSizeF
      some (.ok t4)
  else
    some (.error t1)

/-- `AbstractTree.change_prop(proportion)` called on the node at `p`.  The
float `proportion` is modelled exactly as a rational.  `size_change` is
`ceil(data_size * proportion)` for `proportion >= 0` and
`-ceil(data_size * |proportion|)` otherwise; when `data_size + size_change`
would drop below 1 it is replaced by `data_size - 1`; the result is applied
through `update_size`. -/
def change_prop (t : ATree) (p : List Nat) (proportion : ℚ) : Option ATree := do
  let nd ← nodeAt t p
  let size_change : Int :=
    if 0 ≤ proportion then ⌈(nd.data_size : ℚ) * proportion⌉
    else -⌈(nd.data_size : ℚ) * |proportion|⌉
  let size_change := if nd.data_size + size_change < 1 then nd.data_size - 1
                     else size_change
  updateSizeAt t p size_change

/-! ### Representation invariants (from the class docstring of `AbstractTree`)
and derived observations. -/

/-- The size part of the representation invariants: every node has
`data_size >= 0`, and a node with subtrees has `data_size` equal to the sum
of its subtrees' `data_size`. -/
def wfSizes : ATree → Bool
  | .mk _ subs d _ _ =>
    (if subs.isEmpty then decide (0 ≤ d) else decide (d = sizesSum subs)) &&
    subs.attach.all (fun s => wfSizes s.val)
termination_by t => sizeOf t
decreasing_by
  have h1 := List.sizeOf_lt_of_mem s.property
  simp only [ATree.mk.sizeOf_spec]
  omega

/-- The recursive part of the full representation invariant: the size
invariant, `_root is None` implies no subtrees and size 0, and every subtree
either has its parent reference set or is an emptied (deleted) node. -/
def wfRec : ATree → Bool
  | .mk r subs d _ _ =>
    (decide (r = none → subs.isEmpty ∧ d = 0)) &&
    (if subs.isEmpty then decide (0 ≤ d) else decide (d = sizesSum subs)) &&
    subs.attach.all (fun s => (s.val.parent_set || decide (s.val.root = none)) && wfRec s.val)
termination_by t => sizeOf t
decreasing_by
  have h1 := List.sizeOf_lt_of_mem s.property
  simp only [ATree.mk.sizeOf_spec]
  omega

/-- The full representation invariant of a whole tree: the root node has no
parent reference and `wfRec` holds everywhere. -/
def wfFull (t : ATree) : Bool :=
  !t.parent_set && wfRec t

/-- Weight conservation (§3 invariant 2): every node with at least one
subtree has `data_size` equal to the sum of its subtrees' `data_size`,
zero-weight subtrees included. -/
def sumInv : ATree → Bool
  | .mk _ subs d _ _ =>
    (subs.isEmpty || decide (d = sizesSum subs)) &&
    subs.attach.all (fun s => sumInv s.val)
termination_by t => sizeOf t
decreasing_by
  have h1 := List.sizeOf_lt_of_mem s.property
  simp only [ATree.mk.sizeOf_spec]
  omega

/-- The invariant actually preserved by arbitrary leaf mutations (deleting
the root leaf stops at `Except.error` with the label already cleared, so the
`d = 0` part of `wfRec`'s empty-node clause is not preserved; this weaker
invariant is): weight conservation, empty nodes are childless, and every
subtree with a cleared parent reference is an emptied node. -/
def invMut : ATree → Bool
  | .mk r subs d _ _ =>
    (decide (r = none → subs.isEmpty)) &&
    (subs.isEmpty || decide (d = sizesSum subs)) &&
    subs.attach.all (fun s => (s.val.parent_set || decide (s.val.root = none)) && invMut s.val)
termination_by t => sizeOf t
decreasing_by
  have h1 := List.sizeOf_lt_of_mem s.property
  simp only [ATree.mk.sizeOf_spec]
  omega

/-- Number of strictly-positive-weight leaves (childless nodes) of a tree. -/
def posLeafCount : ATree → Nat
  | .mk _ [] d _ _ => if 0 < d then 1 else 0
  | .mk _ (s0 :: subs) _ _ _ =>
    ((s0 :: subs).attach.map (fun s => posLeafCount s.val)).sum
termination_by t => sizeOf t
decreasing_by
  have h1 := List.sizeOf_lt_of_mem s.property
  simp only [ATree.mk.sizeOf_spec]
  omega

/-- A mutation of the tree: `delete()` or `change_prop(q)` invoked on the
node at the given path. -/
inductive Mut : Type where
  | del (p : List Nat)
  | chg (p : List Nat) (q : ℚ)

/-- Whether the node is a leaf in the sense of the specification: childless
with a present label. -/
def isLeafNode (t : ATree) : Bool :=
  t.subtrees.isEmpty && t.root.isSome

/-- Apply a mutation addressed at a leaf of the current tree; an address that
does not denote a leaf is skipped (the claims quantify over mutations
"applied to its leaves").  When `delete` raises (`Except.error`) the
partially mutated state is kept, as the exception aborts the method after
the mutation done so far. -/
def applyMut (t : ATree) : Mut → ATree
  | .del p =>
    match nodeAt t p with
    | some nd =>
      if isLeafNode nd then
        match delete t p with
        | some (.ok t') => t'
        | some (.error t') => t'
        | none => t
      else t
    | none => t
  | .chg p q =>
    match nodeAt t p with
    | some nd =>
      if isLeafNode nd then (change_prop t p q).getD t else t
    | none => t

/-! ### Fuel-indexed evaluators

`generate_treemap` and `leaf_at` are defined by well-founded recursion and
therefore do not reduce inside the kernel.  The following fuel-indexed
copies are structurally recursive (hence evaluable by `decide`); the
agreement lemmas below prove that whenever they produce a value, the main
definitions produce the same value. -/

/-- `genLoopV` with the recursive call abstracted and no membership data. -/
def genLoopVF (gen : ATree → Rect → Option (List Entry)) (S yy hh ww iniX : Int) :
    List ATree → Int → List Entry → Option (ATree × Nat × Int) → Option (List Entry)
  | [], _, res, _ => some res
  | [s], xx, res, lastT => do
      let localW := ww - xx + iniX
      let sub ← gen s ⟨xx, yy, localW, hh⟩
      let res := res ++ sub
      let lastT := if sub.isEmpty then lastT else some (s, sub.length, xx)
      match lastT with
      | none => none
      | some (lt, cnt, sx) => do
          let res := res.take (res.length - cnt)
          let localW2 := ww - sx + iniX
          let sub2 ← gen lt ⟨sx, yy, localW2, hh⟩
          some (res ++ sub2)
  | s :: s2 :: rest, xx, res, lastT => do
      let localW := s.data_size * ww / S
      let sub ← gen s ⟨xx, yy, localW, hh⟩
      let res := res ++ sub
      let lastT := if sub.isEmpty then lastT else some (s, sub.length, xx)
      genLoopVF gen S yy hh ww iniX (s2 :: rest) (xx + localW) res lastT

/-- `genLoopH` with the recursive call abstracted and no membership data. -/
def genLoopHF (gen : ATree → Rect → Option (List Entry)) (S xx ww hh iniY : Int) :
    List ATree → Int → List Entry → Option (ATree × Nat × Int) → Option (List Entry)
  | [], _, res, _ => some res
  | [s], yy, res, lastT => do
      let localH := hh - yy + iniY
      let sub ← gen s ⟨xx, yy, ww, localH⟩
      let res := res ++ sub
      let lastT := if sub.isEmpty then lastT else some (s, sub.length, yy)
      match lastT with
      | none => none
      | some (lt, cnt, sy) => do
          let res := res.take (res.length - cnt)
          let localH2 := hh - sy + iniY
          let sub2 ← gen lt ⟨xx, sy, ww, localH2⟩
          some (res ++ sub2)
  | s :: s2 :: rest, yy, res, lastT => do
      let localH := s.data_size * hh / S
      let sub ← gen s ⟨xx, yy, ww, localH⟩
      let res := res ++ sub
      let lastT := if sub.isEmpty then lastT else some (s, sub.length, yy)
      genLoopHF gen S xx ww hh iniY (s2 :: rest) (yy + localH) res lastT

/-- Fuel-indexed copy of `generate_treemap`. -/
def genTreemapF : Nat → ATree → Rect → Option (List Entry)
  | 0, _, _ => none
  | fuel + 1, t, r =>
    if t.data_size = 0 then some []
    else if t.subtrees.isEmpty then some [(r, t.colour)]
    else if r.w > r.h then
      genLoopVF (genTreemapF fuel) t.data_size r.y r.h r.w r.x t.subtrees r.x [] none
    else
      genLoopHF (genTreemapF fuel) t.data_size r.x r.w r.h r.y t.subtrees r.y [] none

/-- `leafLoopV` with the recursive call abstracted and no membership data. -/
def leafLoopVF (la : ATree → Rect → Option (Option ATree)) (S yy hh ww iniX : Int) :
    List ATree → Int → Option (ATree × Int × Int) → Option ATree →
      Option (Option ATree)
  | [], _, _, result => some result
  | s :: rest, xx, lastT, result =>
      if result.isSome then some result else do
      let localW := s.data_size * ww / S
      let (lastT, result) ←
        if s.data_size > 0 then do
          let r0 ← la s ⟨xx, yy, localW, hh⟩
          pure (some (s, xx, yy), r0)
        else pure (lastT, result)
      match rest with
      | _ :: _ => leafLoopVF la S yy hh ww iniX rest (xx + localW) lastT result
      | [] =>
        match lastT with
        | none => none
        | some (lt, lx, ly) => do
            let localW2 := ww - lx + iniX
            let result2 ← la lt ⟨lx, ly, localW2, hh⟩
            some result2

/-- `leafLoopH` with the recursive call abstracted and no membership data. -/
def leafLoopHF (la : ATree → Rect → Option (Option ATree)) (S xx ww hh iniY : Int) :
    List ATree → Int → Option (ATree × Int × Int) → Option ATree →
      Option (Option ATree)
  | [], _, _, result => some result
  | s :: rest, yy, lastT, result =>
      if result.isSome then some result else do
      let localH := s.data_size * hh / S
      let (lastT, result) ←
        if s.data_size > 0 then do
          let r0 ← la s ⟨xx, yy, ww, localH⟩
          pure (some (s, xx, yy), r0)
        else pure (lastT, result)
      match rest with
      | _ :: _ => leafLoopHF la S xx ww hh iniY rest (yy + localH) lastT result
      | [] =>
        match lastT with
        | none => none
        | some (lt, lx, ly) => do
            let localH2 := hh - ly + iniY
            let result2 ← la lt ⟨lx, ly, ww, localH2⟩
            some result2

/-- Fuel-indexed copy of `leaf_at`. -/
def leafAtF : Nat → ATree → (Int × Int) → Rect → Option (Option ATree)
  | 0, _, _, _ => none
  | fuel + 1, t, pos, r =>
    if t.data_size = 0 then some none
    else if t.subtrees.isEmpty then
      some (if r.x ≤ pos.1 ∧ pos.1 ≤ r.x + r.w ∧ r.y ≤ pos.2 ∧ pos.2 ≤ r.y + r.h
            then some t else none)
    else if r.w > r.h then
      leafLoopVF (fun t' r' => leafAtF fuel t' pos r') t.data_size r.y r.h r.w r.x
        t.subtrees r.x none none
    else
      leafLoopHF (fun t' r' => leafAtF fuel t' pos r') t.data_size r.x r.w r.h r.y
        t.subtrees r.y none none

/-- The `size_change` computed by `AbstractTree.change_prop` from the current
`data_size` and the proportion: the naive ceiling delta with the sign of the
proportion, replaced by `data_size - 1` when the result would drop below 1. -/
def cpDelta (d : Int) (proportion : ℚ) : Int :=
  let size_change : Int :=
    if 0 ≤ proportion then ⌈(d : ℚ) * proportion⌉
    else -⌈(d : ℚ) * |proportion|⌉
  if d + size_change < 1 then d - 1 else size_change

/-- Every node strictly below the root along the path `q` (the nodes at the
non-empty prefixes of `q`) has its parent reference set, so an
`update_size` started at the node at `q` propagates all the way up. -/
def chainOK (t : ATree) (q : List Nat) : Prop :=
  ∀ k, k < q.length → ∃ a, nodeAt t (q.take (k + 1)) = some a ∧ a.parent_set = true

/-! ### Geometry of the layout output. -/

/-- A rational point lies in the closed rectangle (edges included). -/
def memRect (p : ℚ × ℚ) (r : Rect) : Prop :=
  (r.x : ℚ) ≤ p.1 ∧ p.1 ≤ r.x + r.w ∧ (r.y : ℚ) ≤ p.2 ∧ p.2 ≤ r.y + r.h

/-- A rational point lies in the open interior of the rectangle. -/
def memIntr (p : ℚ × ℚ) (r : Rect) : Prop :=
  (r.x : ℚ) < p.1 ∧ p.1 < r.x + r.w ∧ (r.y : ℚ) < p.2 ∧ p.2 < r.y + r.h

/-- The rectangles of the entries exactly cover `r`: a point lies in `r`
iff it lies in one of the entries' rectangles. -/
def covers (l : List Entry) (r : Rect) : Prop :=
  ∀ p : ℚ × ℚ, memRect p r ↔ ∃ e ∈ l, memRect p e.1

/-- The interiors of the entries' rectangles are pairwise disjoint. -/
def disjointInteriors (l : List Entry) : Prop :=
  l.Pairwise (fun a b => ∀ p : ℚ × ℚ, ¬(memIntr p a.1 ∧ memIntr p b.1))

/-- `a` lies inside `b` and has non-negative extents. -/
def rectInside (a b : Rect) : Prop :=
  b.x ≤ a.x ∧ a.x + a.w ≤ b.x + b.w ∧ b.y ≤ a.y ∧ a.y + a.h ≤ b.y + b.h ∧
    0 ≤ a.w ∧ 0 ≤ a.h

/-- Integer-point membership in a closed rectangle, as a boolean. -/
def inRectI (p : Int × Int) (r : Rect) : Bool :=
  decide (r.x ≤ p.1) && decide (p.1 ≤ r.x + r.w) &&
  decide (r.y ≤ p.2) && decide (p.2 ≤ r.y + r.h)

/-- The three layout properties bundled: the entries exactly cover `r`, their
interiors are pairwise disjoint, and each entry lies inside `r`. -/
def tiles (l : List Entry) (r : Rect) : Prop :=
  covers l r ∧ disjointInteriors l ∧ ∀ e ∈ l, rectInside e.1 r

/-- Accumulator invariant of the vertical layout loop: the entries produced
so far tile the strip from `iniX` to the running `x` (at the very start the
list is empty and `x` has not moved). -/
def tilesSegV (l : List Entry) (iniX x yy hh : Int) : Prop :=
  (l = [] ∧ x = iniX) ∨ tiles l ⟨iniX, yy, x - iniX, hh⟩

/-- Accumulator invariant of the horizontal layout loop. -/
def tilesSegH (l : List Entry) (iniY y xx ww : Int) : Prop :=
  (l = [] ∧ y = iniY) ∨ tiles l ⟨xx, iniY, ww, y - iniY⟩

/-- Invariant of the `last_tree` loop variable of the vertical layout loop:
when set, it names a positive-weight subtree whose rendering is exactly the
final `cnt` entries of the accumulated result, the earlier entries tiling
the strip from `iniX` to the saved coordinate `sx`. -/
def lastInvV (subs : List ATree) (iniX yy hh : Int)
    (lastT : Option ({s : ATree // s ∈ subs} × Nat × Int))
    (res : List Entry) (x : Int) : Prop :=
  match lastT with
  | none => True
  | some (lt, cnt, sx) =>
      0 < lt.val.data_size ∧ iniX ≤ sx ∧ sx ≤ x ∧ cnt = posLeafCount lt.val ∧
      ∃ res₀ sub, res = res₀ ++ sub ∧ sub.length = cnt ∧
        tilesSegV res₀ iniX sx yy hh

/-- Invariant of the `last_tree` loop variable of the horizontal layout
loop; mirror image of `lastInvV`. -/
def lastInvH (subs : List ATree) (iniY xx ww : Int)
    (lastT : Option ({s : ATree // s ∈ subs} × Nat × Int))
    (res : List Entry) (y : Int) : Prop :=
  match lastT with
  | none => True
  | some (lt, cnt, sy) =>
      0 < lt.val.data_size ∧ iniY ≤ sy ∧ sy ≤ y ∧ cnt = posLeafCount lt.val ∧
      ∃ res₀ sub, res = res₀ ++ sub ∧ sub.length = cnt ∧
        tilesSegH res₀ iniY sy xx ww

/-! ### Specification helper for weight propagation. -/

/-- Add `d` to the `data_size` of the node at `p` and of every node on the
way there (the ancestors of the node at `p` and the node itself); all other
attributes are untouched.  `update_size` reduces to this whenever every node
strictly below the root on the path has its parent reference set. -/
def addAlong (t : ATree) (p : List Nat) (d : Int) : ATree :=
  match t, p with
  | .mk r subs ds c ps, [] => .mk r subs (ds + d) c ps
  | .mk r subs ds c ps, i :: p' =>
    match subs[i]? with
    | none => .mk r subs ds c ps
    | some s => .mk r (subs.set i (addAlong s p' d)) (ds + d) c ps

/-- `l.foldl applyMut t`: the state after a sequence of leaf mutations. -/
def applyMuts (t : ATree) (l : List Mut) : ATree :=
  l.foldl applyMut t

/-! ### Concrete fixtures used by the individual claims. -/

/-- A leaf as built by the adapters: labelled, childless, explicit weight. -/
def mkLeaf (n : String) (w : Int) (c : Colour) : ATree :=
  init (some n) [] w c

/-- The tree of the `leaf_at` counterexample: leaves of weight 1, 1, an
internal node `C` with leaves of weight 3 and 1, and a trailing deleted
(empty) child. -/
def c1tree : ATree :=
  init (some "top")
    [mkLeaf "A" 1 (1, 0, 0), mkLeaf "B" 1 (2, 0, 0),
     init (some "C") [mkLeaf "L1" 3 (3, 0, 0), mkLeaf "L2" 1 (4, 0, 0)] 0 (5, 0, 0),
     ATree.mk none [] 0 (6, 0, 0) false] 0 (0, 0, 0)

/-- An empty tree (deleted / never populated): label absent, weight 0. -/
def c2empty : ATree := ATree.mk none [] 0 (0, 0, 0) false

/-- Concrete scenario 1 of the specification: three leaves of weights
10, 20, 30. -/
def c2tree : ATree :=
  init (some "top")
    [mkLeaf "a" 10 (1, 0, 0), mkLeaf "b" 20 (2, 0, 0), mkLeaf "c" 30 (3, 0, 0)]
    0 (0, 0, 0)

/-- Fixture for weight conservation: a root with a leaf and an internal
node holding two leaves. -/
def c3tree : ATree :=
  init (some "top")
    [mkLeaf "a" 5 (1, 0, 0),
     init (some "m") [mkLeaf "b" 7 (2, 0, 0), mkLeaf "c" 9 (3, 0, 0)] 0 (4, 0, 0)]
    0 (0, 0, 0)

/-- A sequence of leaf mutations for the weight-conservation witness. -/
def c3muts : List Mut :=
  [Mut.chg [0] (1/2), Mut.del [1, 0], Mut.chg [1, 1] (-(3/4)), Mut.del [0]]

/-- Fixture for deletion of a proper leaf. -/
def c5tree : ATree :=
  init (some "top")
    [init (some "m") [mkLeaf "a" 5 (1, 0, 0), mkLeaf "b" 7 (2, 0, 0)] 0 (3, 0, 0)]
    0 (0, 0, 0)

/-- Fixture for the resize clamp: a single leaf of weight 3. -/
def c6tree : ATree := init (some "top") [mkLeaf "a" 3 (1, 0, 0)] 0 (0, 0, 0)

/-- Fixture for the degenerate resize: a zero-weight leaf under a root. -/
def c7tree : ATree := init (some "top") [mkLeaf "a" 0 (1, 0, 0)] 0 (0, 0, 0)

/-- Fixture for `delete` precondition violations: the node at path `[0]`
has a child, so deleting it violates the leaf precondition. -/
def c8tree : ATree :=
  init (some "top") [init (some "m") [mkLeaf "a" 5 (1, 0, 0)] 0 (2, 0, 0)] 0 (0, 0, 0)

/-- Concrete scenario 3 fixture: a leaf of weight 100 (and a sibling). -/
def c9tree : ATree :=
  init (some "top") [mkLeaf "a" 100 (1, 0, 0), mkLeaf "b" 50 (2, 0, 0)] 0 (0, 0, 0)

/-- Fixture for the small-growth claim: a leaf of weight 1. -/
def c10tree : ATree :=
  init (some "top") [mkLeaf "a" 1 (1, 0, 0), mkLeaf "b" 2 (2, 0, 0)] 0 (0, 0, 0)

/-- The output of `generate_treemap` on `c1tree` over `(0, 0, 10, 1)`:
after the trailing empty child forces the stretch, the subtree `C` is
re-rendered over width 8, placing `L1` on `[2, 8]` and `L2` on `[8, 10]`. -/
def c1out : List Entry :=
  [(⟨0, 0, 1, 1⟩, (1, 0, 0)), (⟨1, 0, 1, 1⟩, (2, 0, 0)),
   (⟨2, 0, 6, 1⟩, (3, 0, 0)), (⟨8, 0, 2, 1⟩, (4, 0, 0))]

@[simp] theorem root_mk (r s d c p) : (ATree.mk r s d c p).root = r := rfl

@[simp] theorem subtrees_mk (r s d c p) : (ATree.mk r s d c p).subtrees = s := rfl

@[simp] theorem data_size_mk (r s d c p) : (ATree.mk r s d c p).data_size = d := rfl

@[simp] theorem colour_mk (r s d c p) : (ATree.mk r s d c p).colour = c := rfl

@[simp] theorem parent_set_mk (r s d c p) : (ATree.mk r s d c p).parent_set = p := rfl

/-! ### Agreement of the fuel evaluators with the main definitions. -/

theorem genLoopVF_agree (S yy hh ww iniX : Int) (subs : List ATree)
    (gen : ATree → Rect → Option (List Entry))
    (rec : (s : ATree) → s ∈ subs → Rect → Option (List Entry))
    (hgen : ∀ s (hs : s ∈ subs) r' o, gen s r' = some o → rec s hs r' = some o) :
    ∀ (l : List {s : ATree // s ∈ subs}) (xx : Int) (res : List Entry)
      (lastT : Option ({s : ATree // s ∈ subs} × Nat × Int)) (out : List Entry),
      genLoopVF gen S yy hh ww iniX (l.map Subtype.val) xx res
        (lastT.map (fun e => (e.1.val, e.2))) = some out →
      genLoopV S yy hh ww iniX subs rec l xx res lastT = some out
  | [], xx, res, lastT, out => by
      intro h
      simpa [genLoopVF, genLoopV] using h
  | [s], xx, res, lastT, out => by
      intro h
      simp only [List.map_cons, List.map_nil, genLoopVF, genLoopV] at h ⊢
      cases h1 : gen s.val ⟨xx, yy, ww - xx + iniX, hh⟩ with
      | none => simp [h1] at h
      | some sub =>
        rw [h1] at h
        rw [hgen s.val s.property _ _ h1]
        simp only [Option.bind_eq_bind, Option.some_bind] at h ⊢
        cases he : sub.isEmpty with
        | true =>
          simp only [he, if_true] at h ⊢
          cases lastT with
          | none => simp at h
          | some e =>
            obtain ⟨lt, cnt, sx⟩ := e
            simp only [Option.map_some'] at h
            dsimp only
            cases h2 : gen lt.val ⟨sx, yy, ww - sx + iniX, hh⟩ with
            | none => rw [h2] at h; exact absurd h (by simp)
            | some sub2 =>
              rw [h2] at h
              rw [hgen lt.val lt.property _ _ h2]
              simpa using h
        | false =>
          simp only [he, Bool.false_eq_true, if_false] at h ⊢
          cases h2 : gen s.val ⟨xx, yy, ww - xx + iniX, hh⟩ with
          | none => rw [h2] at h; exact absurd h (by simp)
          | some sub2 =>
            rw [h2] at h
            rw [hgen s.val s.property _ _ h2]
            simpa using h
  | s :: s2 :: rest, xx, res, lastT, out => by
      intro h
      simp only [List.map_cons, genLoopVF, genLoopV] at h ⊢
      cases h1 : gen s.val ⟨xx, yy, s.val.data_size * ww / S, hh⟩ with
      | none => simp [h1] at h
      | some sub =>
        rw [h1] at h
        rw [hgen s.val s.property _ _ h1]
        simp only [Option.bind_eq_bind, Option.some_bind] at h ⊢
        cases he : sub.isEmpty with
        | true =>
          simp only [he, if_true] at h ⊢
          exact genLoopVF_agree S yy hh ww iniX subs gen rec hgen (s2 :: rest) _ _ _ _ h
        | false =>
          simp only [he, Bool.false_eq_true, if_false] at h ⊢
          exact genLoopVF_agree S yy hh ww iniX subs gen rec hgen (s2 :: rest) _ _
            (some (s, sub.length, xx)) _ h

theorem genLoopHF_agree (S xx ww hh iniY : Int) (subs : List ATree)
    (gen : ATree → Rect → Option (List Entry))
    (rec : (s : ATree) → s ∈ subs → Rect → Option (List Entry))
    (hgen : ∀ s (hs : s ∈ subs) r' o, gen s r' = some o → rec s hs r' = some o) :
    ∀ (l : List {s : ATree // s ∈ subs}) (yy : Int) (res : List Entry)
      (lastT : Option ({s : ATree // s ∈ subs} × Nat × Int)) (out : List Entry),
      genLoopHF gen S xx ww hh iniY (l.map Subtype.val) yy res
        (lastT.map (fun e => (e.1.val, e.2))) = some out →
      genLoopH S xx ww hh iniY subs rec l yy res lastT = some out
  | [], yy, res, lastT, out => by
      intro h
      simpa [genLoopHF, genLoopH] using h
  | [s], yy, res, lastT, out => by
      intro h
      simp only [List.map_cons, List.map_nil, genLoopHF, genLoopH] at h ⊢
      cases h1 : gen s.val ⟨xx, yy, ww, hh - yy + iniY⟩ with
      | none => simp [h1] at h
      | some sub =>
        rw [h1] at h
        rw [hgen s.val s.property _ _ h1]
        simp only [Option.bind_eq_bind, Option.some_bind] at h ⊢
        cases he : sub.isEmpty with
        | true =>
          simp only [he, if_true] at h ⊢
          cases lastT with
          | none => simp at h
          | some e =>
            obtain ⟨lt, cnt, sy⟩ := e
            simp only [Option.map_some'] at h
            dsimp only
            cases h2 : gen lt.val ⟨xx, sy, ww, hh - sy + iniY⟩ with
            | none => rw [h2] at h; exact absurd h (by simp)
            | some sub2 =>
              rw [h2] at h
              rw [hgen lt.val lt.property _ _ h2]
              simpa using h
        | false =>
          simp only [he, Bool.false_eq_true, if_false] at h ⊢
          cases h2 : gen s.val ⟨xx, yy, ww, hh - yy + iniY⟩ with
          | none => rw [h2] at h; exact absurd h (by simp)
          | some sub2 =>
            rw [h2] at h
            rw [hgen s.val s.property _ _ h2]
            simpa using h
  | s :: s2 :: rest, yy, res, lastT, out => by
      intro h
      simp only [List.map_cons, genLoopHF, genLoopH] at h ⊢
      cases h1 : gen s.val ⟨xx, yy, ww, s.val.data_size * hh / S⟩ with
      | none => simp [h1] at h
      | some sub =>
        rw [h1] at h
        rw [hgen s.val s.property _ _ h1]
        simp only [Option.bind_eq_bind, Option.some_bind] at h ⊢
        cases he : sub.isEmpty with
        | true =>
          simp only [he, if_true] at h ⊢
          exact genLoopHF_agree S xx ww hh iniY subs gen rec hgen (s2 :: rest) _ _ _ _ h
        | false =>
          simp only [he, Bool.false_eq_true, if_false] at h ⊢
          exact genLoopHF_agree S xx ww hh iniY subs gen rec hgen (s2 :: rest) _ _
            (some (s, sub.length, yy)) _ h

theorem genTreemapF_agree :
    ∀ (n : Nat) (t : ATree) (r : Rect) (out : List Entry),
      genTreemapF n t r = some out → generate_treemap t r = some out
  | 0, t, r, out => by
      intro h
      simp [genTreemapF] at h
  | n + 1, t, r, out => by
      intro h
      rw [generate_treemap]
      simp only [genTreemapF] at h
      by_cases h0 : t.data_size = 0
      · simpa [h0] using h
      · by_cases hsub : t.subtrees.isEmpty
        · simpa [h0, hsub] using h
        · by_cases hwh : r.w > r.h
          · simp only [h0, hsub, hwh, if_true, if_false, if_neg, ite_true, ite_false] at h ⊢
            refine genLoopVF_agree _ _ _ _ _ _ _ _
              (fun s hs r' o ho => genTreemapF_agree n s r' o ho)
              t.subtrees.attach _ _ none _ ?_
            rw [List.attach_map_subtype_val]
            exact h
          · simp only [h0, hsub, hwh, if_true, if_false, if_neg, ite_true, ite_false] at h ⊢
            refine genLoopHF_agree _ _ _ _ _ _ _ _
              (fun s hs r' o ho => genTreemapF_agree n s r' o ho)
              t.subtrees.attach _ _ none _ ?_
            rw [List.attach_map_subtype_val]
            exact h

theorem leafLoopVF_agree (S yy hh ww iniX : Int) (pos : Int × Int) (subs : List ATree)
    (la : ATree → Rect → Option (Option ATree))
    (rec : (s : ATree) → s ∈ subs → Rect → Option (Option ATree))
    (hla : ∀ s (hs : s ∈ subs) r' o, la s r' = some o → rec s hs r' = some o) :
    ∀ (l : List {s : ATree // s ∈ subs}) (xx : Int)
      (lastT : Option ({s : ATree // s ∈ subs} × Int × Int)) (result : Option ATree)
      (out : Option ATree),
      leafLoopVF la S yy hh ww iniX (l.map Subtype.val) xx
        (lastT.map (fun e => (e.1.val, e.2))) result = some out →
      leafLoopV S yy hh ww iniX pos subs rec l xx lastT result = some out
  | [], xx, lastT, result, out => by
      intro h
      simpa [leafLoopVF, leafLoopV] using h
  | s :: rest, xx, lastT, result, out => by
      intro h
      simp only [List.map_cons, leafLoopVF, leafLoopV] at h ⊢
      cases result with
      | some fnd => simpa using h
      | none =>
        simp only [Option.isSome_none, Bool.false_eq_true, if_false] at h ⊢
        by_cases hd : s.val.data_size > 0
        · simp only [hd, if_true, Option.bind_eq_bind] at h ⊢
          cases h1 : la s.val ⟨xx, yy, s.val.data_size * ww / S, hh⟩ with
          | none => rw [h1] at h; simp at h
          | some r0 =>
            rw [h1] at h
            rw [hla s.val s.property _ _ h1]
            simp only [Option.some_bind, pure, Option.pure_def, Option.some_bind] at h ⊢
            cases rest with
            | nil =>
              simp only [List.map_nil] at h ⊢
              cases h2 : la s.val ⟨xx, yy, ww - xx + iniX, hh⟩ with
              | none => rw [h2] at h; exact absurd h (by simp)
              | some r2 =>
                rw [h2] at h
                rw [hla s.val s.property _ _ h2]
                simpa using h
            | cons s2 rest2 =>
              simp only [List.map_cons] at h ⊢
              exact leafLoopVF_agree S yy hh ww iniX pos subs la rec hla (s2 :: rest2) _
                (some (s, xx, yy)) r0 _ h
        · simp only [hd, if_false, Option.bind_eq_bind, pure, Option.pure_def,
            Option.some_bind] at h ⊢
          cases rest with
          | nil =>
            simp only [List.map_nil] at h ⊢
            cases lastT with
            | none => simp at h
            | some e =>
              obtain ⟨lt, lx, ly⟩ := e
              simp only [Option.map_some'] at h
              dsimp only at h ⊢
              cases h2 : la lt.val ⟨lx, ly, ww - lx + iniX, hh⟩ with
              | none => rw [h2] at h; exact absurd h (by simp)
              | some r2 =>
                rw [h2] at h
                rw [hla lt.val lt.property _ _ h2]
                simpa using h
          | cons s2 rest2 =>
            simp only [List.map_cons] at h ⊢
            exact leafLoopVF_agree S yy hh ww iniX pos subs la rec hla (s2 :: rest2) _
              lastT none _ h

theorem leafLoopHF_agree (S xx ww hh iniY : Int) (pos : Int × Int) (subs : List ATree)
    (la : ATree → Rect → Option (Option ATree))
    (rec : (s : ATree) → s ∈ subs → Rect → Option (Option ATree))
    (hla : ∀ s (hs : s ∈ subs) r' o, la s r' = some o → rec s hs r' = some o) :
    ∀ (l : List {s : ATree // s ∈ subs}) (yy : Int)
      (lastT : Option ({s : ATree // s ∈ subs} × Int × Int)) (result : Option ATree)
      (out : Option ATree),
      leafLoopHF la S xx ww hh iniY (l.map Subtype.val) yy
        (lastT.map (fun e => (e.1.val, e.2))) result = some out →
      leafLoopH S xx ww hh iniY pos subs rec l yy lastT result = some out
  | [], yy, lastT, result, out => by
      intro h
      simpa [leafLoopHF, leafLoopH] using h
  | s :: rest, yy, lastT, result, out => by
      intro h
      simp only [List.map_cons, leafLoopHF, leafLoopH] at h ⊢
      cases result with
      | some fnd => simpa using h
      | none =>
        simp only [Option.isSome_none, Bool.false_eq_true, if_false] at h ⊢
        by_cases hd : s.val.data_size > 0
        · simp only [hd, if_true, Option.bind_eq_bind] at h ⊢
          cases h1 : la s.val ⟨xx, yy, ww, s.val.data_size * hh / S⟩ with
          | none => rw [h1] at h; simp at h
          | some r0 =>
            rw [h1] at h
            rw [hla s.val s.property _ _ h1]
            simp only [Option.some_bind, pure, Option.pure_def, Option.some_bind] at h ⊢
            cases rest with
            | nil =>
              simp only [List.map_nil] at h ⊢
              cases h2 : la s.val ⟨xx, yy, ww, hh - yy + iniY⟩ with
              | none => rw [h2] at h; exact absurd h (by simp)
              | some r2 =>
                rw [h2] at h
                rw [hla s.val s.property _ _ h2]
                simpa using h
            | cons s2 rest2 =>
              simp only [List.map_cons] at h ⊢
              exact leafLoopHF_agree S xx ww hh iniY pos subs la rec hla (s2 :: rest2) _
                (some (s, xx, yy)) r0 _ h
        · simp only [hd, if_false, Option.bind_eq_bind, pure, Option.pure_def,
            Option.some_bind] at h ⊢
          cases rest with
          | nil =>
            simp only [List.map_nil] at h ⊢
            cases lastT with
            | none => simp at h
            | some e =>
              obtain ⟨lt, lx, ly⟩ := e
              simp only [Option.map_some'] at h
              dsimp only at h ⊢
              cases h2 : la lt.val ⟨lx, ly, ww, hh - ly + iniY⟩ with
              | none => rw [h2] at h; exact absurd h (by simp)
              | some r2 =>
                rw [h2] at h
                rw [hla lt.val lt.property _ _ h2]
                simpa using h
          | cons s2 rest2 =>
            simp only [List.map_cons] at h ⊢
            exact leafLoopHF_agree S xx ww hh iniY pos subs la rec hla (s2 :: rest2) _
              lastT none _ h

theorem leafAtF_agree :
    ∀ (n : Nat) (t : ATree) (pos : Int × Int) (r : Rect) (out : Option ATree),
      leafAtF n t pos r = some out → leaf_at t pos r = some out
  | 0, t, pos, r, out => by
      intro h
      simp [leafAtF] at h
  | n + 1, t, pos, r, out => by
      intro h
      rw [leaf_at]
      simp only [leafAtF] at h
      by_cases h0 : t.data_size = 0
      · simpa [h0] using h
      · by_cases hsub : t.subtrees.isEmpty
        · simpa [h0, hsub] using h
        · by_cases hwh : r.w > r.h
          · simp only [h0, hsub, hwh, if_true, if_false, if_neg, ite_true, ite_false] at h ⊢
            refine leafLoopVF_agree _ _ _ _ _ _ _ _ _
              (fun s hs r' o ho => leafAtF_agree n s pos r' o ho)
              t.subtrees.attach _ none _ _ ?_
            rw [List.attach_map_subtype_val]
            exact h
          · simp only [h0, hsub, hwh, if_true, if_false, if_neg, ite_true, ite_false] at h ⊢
            refine leafLoopHF_agree _ _ _ _ _ _ _ _ _
              (fun s hs r' o ho => leafAtF_agree n s pos r' o ho)
              t.subtrees.attach _ none _ _ ?_
            rw [List.attach_map_subtype_val]
            exact h

/-! ### Basic lemmas about the invariants and path operations. -/

theorem sizeOf_subtrees_lt (t : ATree) : sizeOf t.subtrees < sizeOf t := by
  cases t with
  | mk root subs d c p =>
    simp only [subtrees_mk, ATree.mk.sizeOf_spec]
    omega

theorem atree_ind (P : ATree → Prop)
    (step : ∀ t : ATree, (∀ s ∈ t.subtrees, P s) → P t) : ∀ t, P t
  | t => step t (fun s hs => atree_ind P step s)
termination_by t => sizeOf t
decreasing_by
  exact Nat.lt_trans (List.sizeOf_lt_of_mem hs) (sizeOf_subtrees_lt t)

theorem attach_all_iff (l : List ATree) (f : ATree → Bool) :
    (l.attach.all fun s => f s.val) = true ↔ ∀ s ∈ l, f s = true := by
  rw [List.all_eq_true]
  constructor
  · intro h s hs
    exact h ⟨s, hs⟩ (List.mem_attach _ _)
  · intro h x _
    exact h x.val x.property

theorem invMut_mk_iff (r subs d c ps) :
    invMut (.mk r subs d c ps) = true ↔
      (r = none → subs = []) ∧ (subs ≠ [] → d = sizesSum subs) ∧
      ∀ s ∈ subs, (s.parent_set = true ∨ s.root = none) ∧ invMut s = true := by
  rw [invMut]
  rw [Bool.and_eq_true, Bool.and_eq_true,
    attach_all_iff subs (fun s => (s.parent_set || decide (s.root = none)) && invMut s)]
  simp only [Bool.and_eq_true, Bool.or_eq_true, decide_eq_true_eq, List.isEmpty_eq_true]
  constructor
  · rintro ⟨⟨h1, h2⟩, h3⟩
    refine ⟨h1, fun hne => ?_, h3⟩
    rcases h2 with h | h
    · exact absurd h hne
    · exact h
  · rintro ⟨h1, h2, h3⟩
    refine ⟨⟨h1, ?_⟩, h3⟩
    by_cases hne : subs = []
    · exact Or.inl hne
    · exact Or.inr (h2 hne)

theorem sumInv_mk_iff (r subs d c ps) :
    sumInv (.mk r subs d c ps) = true ↔
      (subs ≠ [] → d = sizesSum subs) ∧ ∀ s ∈ subs, sumInv s = true := by
  rw [sumInv]
  rw [Bool.and_eq_true, attach_all_iff subs (fun s => sumInv s)]
  simp only [Bool.or_eq_true, decide_eq_true_eq, List.isEmpty_eq_true]
  constructor
  · rintro ⟨h2, h3⟩
    refine ⟨fun hne => ?_, h3⟩
    rcases h2 with h | h
    · exact absurd h hne
    · exact h
  · rintro ⟨h2, h3⟩
    refine ⟨?_, h3⟩
    by_cases hne : subs = []
    · exact Or.inl hne
    · exact Or.inr (h2 hne)

theorem wfRec_mk_iff (r subs d c ps) :
    wfRec (.mk r subs d c ps) = true ↔
      (r = none → subs = [] ∧ d = 0) ∧
      (subs = [] → 0 ≤ d) ∧ (subs ≠ [] → d = sizesSum subs) ∧
      ∀ s ∈ subs, (s.parent_set = true ∨ s.root = none) ∧ wfRec s = true := by
  rw [wfRec]
  rw [Bool.and_eq_true, Bool.and_eq_true,
    attach_all_iff subs (fun s => (s.parent_set || decide (s.root = none)) && wfRec s)]
  simp only [Bool.and_eq_true, Bool.or_eq_true, decide_eq_true_eq, List.isEmpty_eq_true]
  constructor
  · rintro ⟨⟨h1, h2⟩, h3⟩
    by_cases hne : subs = []
    · rw [if_pos (by simpa using hne)] at h2
      exact ⟨h1, fun _ => of_decide_eq_true h2, fun habs => absurd hne habs, h3⟩
    · rw [if_neg (by simpa using hne)] at h2
      exact ⟨h1, fun habs => absurd habs hne, fun _ => of_decide_eq_true h2, h3⟩
  · rintro ⟨h1, h2a, h2b, h3⟩
    refine ⟨⟨h1, ?_⟩, h3⟩
    by_cases hne : subs = []
    · rw [if_pos (by simpa using hne)]
      exact decide_eq_true (h2a hne)
    · rw [if_neg (by simpa using hne)]
      exact decide_eq_true (h2b hne)

theorem wfSizes_mk_iff (r subs d c ps) :
    wfSizes (.mk r subs d c ps) = true ↔
      (subs = [] → 0 ≤ d) ∧ (subs ≠ [] → d = sizesSum subs) ∧
      ∀ s ∈ subs, wfSizes s = true := by
  rw [wfSizes]
  rw [Bool.and_eq_true, attach_all_iff subs (fun s => wfSizes s)]
  constructor
  · rintro ⟨h2, h3⟩
    by_cases hne : subs = []
    · rw [if_pos (by simpa using hne)] at h2
      exact ⟨fun _ => of_decide_eq_true h2, fun habs => absurd hne habs, h3⟩
    · rw [if_neg (by simpa using hne)] at h2
      exact ⟨fun habs => absurd habs hne, fun _ => of_decide_eq_true h2, h3⟩
  · rintro ⟨h2a, h2b, h3⟩
    refine ⟨?_, h3⟩
    by_cases hne : subs = []
    · rw [if_pos (by simpa using hne)]
      exact decide_eq_true (h2a hne)
    · rw [if_neg (by simpa using hne)]
      exact decide_eq_true (h2b hne)

/-! ### Path lemmas. -/

@[simp] theorem nodeAt_nil (t : ATree) : nodeAt t [] = some t := rfl

theorem nodeAt_cons (t : ATree) (i : Nat) (q : List Nat) :
    nodeAt t (i :: q) = t.subtrees[i]?.bind fun s => nodeAt s q := rfl

@[simp] theorem nodeAt_singleton (t : ATree) (i : Nat) :
    nodeAt t [i] = t.subtrees[i]? := by
  rw [nodeAt_cons]
  cases t.subtrees[i]? <;> rfl

theorem nodeAt_append (t : ATree) (q1 q2 : List Nat) :
    nodeAt t (q1 ++ q2) = (nodeAt t q1).bind fun a => nodeAt a q2 := by
  induction q1 generalizing t with
  | nil => simp
  | cons i q1 ih =>
    rw [List.cons_append, nodeAt_cons, nodeAt_cons]
    cases t.subtrees[i]? with
    | none => rfl
    | some s => simp only [Option.some_bind]; exact ih s

theorem mem_of_getElem?_eq_some {l : List ATree} {i : Nat} {s : ATree}
    (h : l[i]? = some s) : s ∈ l := by
  obtain ⟨hlt, he⟩ := List.getElem?_eq_some_iff.mp h
  exact he ▸ List.getElem_mem hlt

theorem invMut_child {r subs d c ps} {s : ATree}
    (h : invMut (.mk r subs d c ps) = true) (hs : s ∈ subs) : invMut s = true :=
  (((invMut_mk_iff r subs d c ps).mp h).2.2 s hs).2

theorem invMut_descend : ∀ (q : List Nat) (t s : ATree),
    invMut t = true → nodeAt t q = some s → invMut s = true
  | [], t, s, h, hn => by
      rw [nodeAt_nil, Option.some_inj] at hn
      exact hn ▸ h
  | i :: q, t, s, h, hn => by
      cases t with
      | mk r subs d c ps =>
        rw [nodeAt_cons] at hn
        simp only [subtrees_mk] at hn
        cases hq : subs[i]? with
        | none => rw [hq] at hn; exact absurd hn (by simp)
        | some a =>
          rw [hq, Option.some_bind] at hn
          exact invMut_descend q a s (invMut_child h (mem_of_getElem?_eq_some hq)) hn

theorem wfRec_child {r subs d c ps} {s : ATree}
    (h : wfRec (.mk r subs d c ps) = true) (hs : s ∈ subs) : wfRec s = true :=
  (((wfRec_mk_iff r subs d c ps).mp h).2.2.2 s hs).2

theorem wfRec_descend : ∀ (q : List Nat) (t s : ATree),
    wfRec t = true → nodeAt t q = some s → wfRec s = true
  | [], t, s, h, hn => by
      rw [nodeAt_nil, Option.some_inj] at hn
      exact hn ▸ h
  | i :: q, t, s, h, hn => by
      cases t with
      | mk r subs d c ps =>
        rw [nodeAt_cons] at hn
        simp only [subtrees_mk] at hn
        cases hq : subs[i]? with
        | none => rw [hq] at hn; exact absurd hn (by simp)
        | some a =>
          rw [hq, Option.some_bind] at hn
          exact wfRec_descend q a s (wfRec_child h (mem_of_getElem?_eq_some hq)) hn

theorem wfRec_imp_invMut (t : ATree) (h : wfRec t = true) : invMut t = true := by
  induction t using atree_ind with
  | step t ih =>
    cases t with
    | mk r subs d c ps =>
      rw [invMut_mk_iff]
      obtain ⟨h1, _, h3, h4⟩ := (wfRec_mk_iff r subs d c ps).mp h
      exact ⟨fun hr => (h1 hr).1, h3,
        fun s hs => ⟨(h4 s hs).1, ih s (by simpa using hs) (h4 s hs).2⟩⟩

theorem invMut_imp_sumInv (t : ATree) (h : invMut t = true) : sumInv t = true := by
  induction t using atree_ind with
  | step t ih =>
    cases t with
    | mk r subs d c ps =>
      rw [sumInv_mk_iff]
      obtain ⟨_, h2, h3⟩ := (invMut_mk_iff r subs d c ps).mp h
      exact ⟨h2, fun s hs => ih s (by simpa using hs) (h3 s hs).2⟩

theorem wfSizes_child {r subs d c ps} {s : ATree}
    (h : wfSizes (.mk r subs d c ps) = true) (hs : s ∈ subs) : wfSizes s = true :=
  ((wfSizes_mk_iff r subs d c ps).mp h).2.2 s hs

theorem wfSizes_nonneg (t : ATree) (h : wfSizes t = true) : 0 ≤ t.data_size := by
  induction t using atree_ind with
  | step t ih =>
    cases t with
    | mk r subs d c ps =>
      obtain ⟨h1, h2, h3⟩ := (wfSizes_mk_iff r subs d c ps).mp h
      by_cases hne : subs = []
      · simpa using h1 hne
      · rw [data_size_mk, h2 hne]
        refine List.sum_nonneg ?_
        intro x hx
        obtain ⟨s, hs, rfl⟩ := List.exists_of_mem_map hx
        exact ih s (by simpa using hs) (h3 s hs)

theorem wfRec_imp_wfSizes (t : ATree) (h : wfRec t = true) : wfSizes t = true := by
  induction t using atree_ind with
  | step t ih =>
    cases t with
    | mk r subs d c ps =>
      rw [wfSizes_mk_iff]
      obtain ⟨_, h2a, h2b, h3⟩ := (wfRec_mk_iff r subs d c ps).mp h
      exact ⟨h2a, h2b, fun s hs => ih s (by simpa using hs) (h3 s hs).2⟩

theorem invMut_empty_node {s : ATree} (h : invMut s = true) (hr : s.root = none) :
    s.subtrees = [] := by
  cases s with
  | mk r subs d c ps =>
    exact ((invMut_mk_iff r subs d c ps).mp h).1 (by simpa using hr)

theorem chainOK_cons_iff (t : ATree) (i : Nat) (q : List Nat) :
    chainOK t (i :: q) ↔
      ∃ s, t.subtrees[i]? = some s ∧ s.parent_set = true ∧ chainOK s q := by
  constructor
  · intro h
    obtain ⟨a, ha, hps⟩ := h 0 (by simp)
    simp only [List.take_succ_cons, List.take_zero, nodeAt_singleton] at ha
    refine ⟨a, ha, hps, fun k hk => ?_⟩
    obtain ⟨b, hb, hbs⟩ := h (k + 1) (by simpa using hk)
    rw [List.take_succ_cons, nodeAt_cons, ha, Option.some_bind] at hb
    exact ⟨b, hb, hbs⟩
  · rintro ⟨s, hs, hps, hch⟩ k hk
    cases k with
    | zero => exact ⟨s, by simpa using hs, hps⟩
    | succ k =>
      obtain ⟨b, hb, hbs⟩ := hch k (by simpa using hk)
      exact ⟨b, by rw [List.take_succ_cons, nodeAt_cons, hs, Option.some_bind]; exact hb, hbs⟩

theorem chainOK_of_invMut : ∀ (q : List Nat) (t nd : ATree),
    invMut t = true → nodeAt t q = some nd → (q = [] ∨ nd.parent_set = true) →
    chainOK t q
  | [], t, nd, _, _, _ => by
      intro k hk
      simp at hk
  | i :: q, t, nd, h, hn, hps => by
      cases t with
      | mk r subs d c ps =>
        rw [nodeAt_cons] at hn
        simp only [subtrees_mk] at hn
        cases hq : subs[i]? with
        | none => rw [hq] at hn; exact absurd hn (by simp)
        | some s =>
          rw [hq, Option.some_bind] at hn
          have hsmem := mem_of_getElem?_eq_some hq
          have hinvs := invMut_child h hsmem
          have hclause := (((invMut_mk_iff r subs d c ps).mp h).2.2 s hsmem).1
          have hps' : nd.parent_set = true := by
            rcases hps with h | h
            · exact absurd h (by simp)
            · exact h
          have hsps : s.parent_set = true := by
            rcases hclause with h | hroot
            · exact h
            · cases q with
              | nil =>
                rw [nodeAt_nil, Option.some_inj] at hn
                exact hn ▸ hps'
              | cons j q' =>
                have hempty : s.subtrees = [] := invMut_empty_node hinvs hroot
                rw [nodeAt_cons, hempty] at hn
                simp at hn
          rw [chainOK_cons_iff]
          exact ⟨s, hq, hsps, chainOK_of_invMut q s nd hinvs hn (Or.inr hps')⟩

theorem sum_set_int : ∀ (l : List Int) (i : Nat) (a b : Int),
    l[i]? = some a → (l.set i b).sum = l.sum - a + b
  | [], i, a, b, h => by simp at h
  | x :: xs, 0, a, b, h => by
      simp only [List.getElem?_cons_zero, Option.some_inj] at h
      subst h
      simp [List.set]
      ring
  | x :: xs, i + 1, a, b, h => by
      simp only [List.getElem?_cons_succ] at h
      have := sum_set_int xs i a b h
      simp only [List.set, List.sum_cons, this]
      ring

theorem sizesSum_set {l : List ATree} {i : Nat} {s : ATree} (x : ATree)
    (h : l[i]? = some s) :
    sizesSum (l.set i x) = sizesSum l - s.data_size + x.data_size := by
  unfold sizesSum
  rw [List.map_set]
  exact sum_set_int _ i _ _ (by rw [List.getElem?_map, h]; rfl)

theorem modifyAt_spec : ∀ (q : List Nat) (t nd : ATree) (f : ATree → ATree),
    nodeAt t q = some nd →
    ∃ t', modifyAt t q f = some t' ∧ nodeAt t' q = some (f nd) ∧
      ∀ k, k < q.length →
        ∃ a b, nodeAt t (q.take k) = some a ∧ nodeAt t' (q.take k) = some b ∧
          b.root = a.root ∧ b.data_size = a.data_size ∧ b.colour = a.colour ∧
          b.parent_set = a.parent_set ∧ b.subtrees.length = a.subtrees.length
  | [], t, nd, f, hn => by
      rw [nodeAt_nil, Option.some_inj] at hn
      subst hn
      cases t with
      | mk r subs d c ps => exact ⟨_, rfl, by simp, by simp⟩
  | i :: q, t, nd, f, hn => by
      cases t with
      | mk r subs d c ps =>
        rw [nodeAt_cons] at hn
        simp only [subtrees_mk] at hn
        cases hq : subs[i]? with
        | none => rw [hq] at hn; exact absurd hn (by simp)
        | some s =>
          rw [hq, Option.some_bind] at hn
          obtain ⟨s', hs', hns', hanc⟩ := modifyAt_spec q s nd f hn
          have hlt : i < subs.length := (List.getElem?_eq_some_iff.mp hq).1
          refine ⟨.mk r (subs.set i s') d c ps, ?_, ?_, ?_⟩
          · show modifyAt (.mk r subs d c ps) (i :: q) f = _
            rw [modifyAt, hq]
            simp only [Option.bind_eq_bind, Option.some_bind]
            rw [hs']
            simp only [Option.some_bind]
          · rw [nodeAt_cons]
            simp only [subtrees_mk]
            rw [List.getElem?_set_self hlt, Option.some_bind]
            exact hns'
          · intro k hk
            cases k with
            | zero =>
              exact ⟨.mk r subs d c ps, .mk r (subs.set i s') d c ps,
                by simp, by simp, rfl, rfl, rfl, rfl, by simp⟩
            | succ k =>
              simp only [List.length_cons, Nat.succ_lt_succ_iff] at hk
              obtain ⟨a, b, ha, hb, hfacts⟩ := hanc k hk
              refine ⟨a, b, ?_, ?_, hfacts⟩
              · rw [List.take_succ_cons, nodeAt_cons]
                simp only [subtrees_mk]
                rw [hq, Option.some_bind]
                exact ha
              · rw [List.take_succ_cons, nodeAt_cons]
                simp only [subtrees_mk]
                rw [List.getElem?_set_self hlt, Option.some_bind]
                exact hb

theorem addAlong_spec : ∀ (q : List Nat) (t nd : ATree) (d : Int),
    nodeAt t q = some nd →
    nodeAt (addAlong t q d) q
        = some (.mk nd.root nd.subtrees (nd.data_size + d) nd.colour nd.parent_set) ∧
    ∀ k, k < q.length →
      ∃ a b, nodeAt t (q.take k) = some a ∧ nodeAt (addAlong t q d) (q.take k) = some b ∧
        b.root = a.root ∧ b.data_size = a.data_size + d ∧ b.colour = a.colour ∧
        b.parent_set = a.parent_set ∧ b.subtrees.length = a.subtrees.length
  | [], t, nd, d, hn => by
      rw [nodeAt_nil, Option.some_inj] at hn
      subst hn
      cases t with
      | mk r subs ds c ps => exact ⟨by simp [addAlong], by simp⟩
  | i :: q, t, nd, d, hn => by
      cases t with
      | mk r subs ds c ps =>
        rw [nodeAt_cons] at hn
        simp only [subtrees_mk] at hn
        cases hq : subs[i]? with
        | none => rw [hq] at hn; exact absurd hn (by simp)
        | some s =>
          rw [hq, Option.some_bind] at hn
          obtain ⟨hend, hanc⟩ := addAlong_spec q s nd d hn
          have hlt : i < subs.length := (List.getElem?_eq_some_iff.mp hq).1
          have haa : addAlong (.mk r subs ds c ps) (i :: q) d
              = .mk r (subs.set i (addAlong s q d)) (ds + d) c ps := by
            rw [addAlong, hq]
          rw [haa]
          constructor
          · rw [nodeAt_cons]
            simp only [subtrees_mk]
            rw [List.getElem?_set_self hlt, Option.some_bind]
            exact hend
          · intro k hk
            cases k with
            | zero =>
              exact ⟨.mk r subs ds c ps, .mk r (subs.set i (addAlong s q d)) (ds + d) c ps,
                by simp, by simp, rfl, rfl, rfl, rfl, by simp⟩
            | succ k =>
              simp only [List.length_cons, Nat.succ_lt_succ_iff] at hk
              obtain ⟨a, b, ha, hb, hfacts⟩ := hanc k hk
              refine ⟨a, b, ?_, ?_, hfacts⟩
              · rw [List.take_succ_cons, nodeAt_cons]
                simp only [subtrees_mk]
                rw [hq, Option.some_bind]
                exact ha
              · rw [List.take_succ_cons, nodeAt_cons]
                simp only [subtrees_mk]
                rw [List.getElem?_set_self hlt, Option.some_bind]
                exact hb

theorem update_size_eq_addAlong : ∀ (q : List Nat) (t : ATree) (d : Int),
    chainOK t q → (nodeAt t q).isSome →
    update_size t q d = some (addAlong t q d, t.parent_set)
  | [], t, d, _, _ => by
      cases t with
      | mk r subs ds c ps =>
        rw [update_size, addAlong]
        rfl
  | i :: q, t, d, hch, hv => by
      cases t with
      | mk r subs ds c ps =>
        obtain ⟨s, hq, hps, hch'⟩ := (chainOK_cons_iff _ i q).mp hch
        simp only [subtrees_mk] at hq
        have hv' : (nodeAt s q).isSome := by
          rw [nodeAt_cons] at hv
          simp only [subtrees_mk, hq, Option.some_bind] at hv
          exact hv
        have ih := update_size_eq_addAlong q s d hch' hv'
        rw [update_size, hq]
        simp only [Option.bind_eq_bind, Option.some_bind]
        rw [ih]
        simp only [Option.some_bind, hps, if_true]
        rw [addAlong, hq]
        rfl

theorem nodeAt_addAlong_getLast (q : List Nat) (j : Nat) (t m : ATree) (d : Int)
    (hm : nodeAt t (q ++ [j]) = some m) :
    nodeAt (addAlong t q d) (q ++ [j]) = some m := by
  rw [nodeAt_append] at hm ⊢
  cases ha : nodeAt t q with
  | none => rw [ha] at hm; exact absurd hm (by simp)
  | some a =>
    rw [ha, Option.some_bind] at hm
    have hend := (addAlong_spec q t a d ha).1
    rw [hend, Option.some_bind]
    simpa using hm

theorem take_dropLast_eq (q : List Nat) (k : Nat) (hk : k ≤ q.length - 1) :
    q.dropLast.take k = q.take k := by
  rw [List.dropLast_eq_take, List.take_take]
  congr 1
  omega

theorem delete_char (q : List Nat) (t nd : ATree) (hq : q ≠ [])
    (hn : nodeAt t q = some nd) (hps : nd.parent_set = true)
    (hch : chainOK t q.dropLast) :
    ∃ t', delete t q = some (.ok t') ∧
      nodeAt t' q = some (.mk none nd.subtrees 0 nd.colour false) ∧
      ∀ k, k < q.length →
        ∃ a b, nodeAt t (q.take k) = some a ∧ nodeAt t' (q.take k) = some b ∧
          b.root = a.root ∧ b.data_size = a.data_size - nd.data_size ∧
          b.colour = a.colour ∧ b.parent_set = a.parent_set ∧
          b.subtrees.length = a.subtrees.length := by
  obtain ⟨t1, ht1, hn1, hanc1⟩ := modifyAt_spec q t nd clearRootF hn
  have hlen1 : 1 ≤ q.length := by
    cases q with
    | nil => exact absurd rfl hq
    | cons i q' => simp
  have hdll : q.dropLast.length = q.length - 1 := List.length_dropLast q
  -- the parent chain survives the label clearing
  have hch1 : chainOK t1 q.dropLast := by
    intro k hk
    rw [hdll] at hk
    obtain ⟨a, ha, hpsa⟩ := hch k (by rw [hdll]; exact hk)
    rw [take_dropLast_eq q (k + 1) (by omega)] at ha ⊢
    obtain ⟨a', b, ha', hb, _, _, _, hpsb, _⟩ := hanc1 (k + 1) (by omega)
    rw [ha] at ha'
    injection ha' with ha'
    exact ⟨b, hb, by rw [hpsb, ← ha', hpsa]⟩
  have hv1 : (nodeAt t1 q.dropLast).isSome := by
    rcases Nat.lt_or_ge 1 q.length with hgt | hle
    · obtain ⟨a, b, _, hb, _⟩ := hanc1 (q.length - 1) (by omega)
      rw [← take_dropLast_eq q (q.length - 1) (by omega),
        List.take_of_length_le (by rw [hdll])] at hb
      rw [hb]
      rfl
    · have : q.length = 1 := by omega
      have : q.dropLast = [] := List.eq_nil_of_length_eq_zero (by omega)
      rw [this]
      simp
  have hupd := update_size_eq_addAlong q.dropLast t1 (-nd.data_size) hch1 hv1
  set t2 := addAlong t1 q.dropLast (-nd.data_size) with ht2def
  -- the node at `q` is not touched by the ancestor update
  have hn2 : nodeAt t2 q = some (clearRootF nd) := by
    have hsplit := List.dropLast_append_getLast hq
    rw [← hsplit] at hn1 ⊢
    exact nodeAt_addAlong_getLast _ _ _ _ _ hn1
  obtain ⟨t3, ht3, hn3, hanc3⟩ := modifyAt_spec q t2 (clearRootF nd) clearParentF hn2
  obtain ⟨t4, ht4, hn4, hanc4⟩ :=
    modifyAt_spec q t3 (clearParentF (clearRootF nd)) zeroSizeF hn3
  refine ⟨t4, ?_, ?_, ?_⟩
  · rw [delete, hn]
    simp only [Option.bind_eq_bind, Option.some_bind]
    rw [ht1]
    simp only [Option.some_bind, hps, if_true]
    cases q with
    | nil => exact absurd rfl hq
    | cons i q' =>
      simp only [updateSizeAt, hupd, Option.map_some', Option.some_bind]
      rw [ht3]
      simp only [Option.some_bind]
      rw [ht4]
      simp only [Option.some_bind]
  · rw [hn4]
    cases nd with
    | mk rr ss dd cc pp => rfl
  · intro k hk
    -- compose the four stages' effect on the ancestor at `q.take k`
    obtain ⟨a, b1, ha, hb1, hr1, hd1, hc1, hp1, hl1⟩ := hanc1 k hk
    have hstep2 : ∃ b2, nodeAt t2 (q.take k) = some b2 ∧ b2.root = b1.root ∧
        b2.data_size = b1.data_size - nd.data_size ∧ b2.colour = b1.colour ∧
        b2.parent_set = b1.parent_set ∧ b2.subtrees.length = b1.subtrees.length := by
      rcases Nat.lt_or_ge k (q.length - 1) with hklt | hkge
      · cases hx : nodeAt t1 q.dropLast with
        | none => rw [hx] at hv1; simp at hv1
        | some v =>
          obtain ⟨a2, b2, ha2, hb2, hr2, hd2, hc2, hp2, hl2⟩ :=
            (addAlong_spec q.dropLast t1 v (-nd.data_size) hx).2 k (by omega)
          rw [take_dropLast_eq q k (by omega)] at ha2 hb2
          rw [hb1] at ha2
          have hb1a2 : b1 = a2 := Option.some_inj.mp ha2
          subst hb1a2
          exact ⟨b2, hb2, hr2, by omega, hc2, hp2, hl2⟩
      · -- `k = q.length - 1`: the end node of the ancestor update
        have hkeq : k = q.length - 1 := by omega
        cases hx : nodeAt t1 q.dropLast with
        | none => rw [hx] at hv1; simp at hv1
        | some v =>
          have hend := (addAlong_spec q.dropLast t1 v (-nd.data_size) hx).1
          have hqk : q.take k = q.dropLast := by
            rw [List.dropLast_eq_take, hkeq]
          rw [hqk] at hb1 ⊢
          have hvb : v = b1 := by
            rw [hx] at hb1
            exact Option.some_inj.mp hb1
          subst hvb
          refine ⟨_, hend, rfl, by simp only [data_size_mk]; omega, rfl, rfl, rfl⟩
    obtain ⟨b2, hb2, hr2, hd2, hc2, hp2, hl2⟩ := hstep2
    obtain ⟨a3, b3, ha3, hb3, hr3, hd3, hc3, hp3, hl3⟩ := hanc3 k hk
    rw [hb2] at ha3
    have hb2a3 : b2 = a3 := Option.some_inj.mp ha3
    subst hb2a3
    obtain ⟨a4, b4, ha4, hb4, hr4, hd4, hc4, hp4, hl4⟩ := hanc4 k hk
    rw [hb3] at ha4
    have hb3a4 : b3 = a4 := Option.some_inj.mp ha4
    subst hb3a4
    refine ⟨a, b4, ha, hb4, by rw [hr4, hr3, hr2, hr1], by rw [hd4, hd3, hd2, hd1],
      by rw [hc4, hc3, hc2, hc1], by rw [hp4, hp3, hp2, hp1], by rw [hl4, hl3, hl2, hl1]⟩

theorem parentSet_of_invMut (q : List Nat) (j : Nat) (t m : ATree)
    (hinv : invMut t = true) (hm : nodeAt t (q ++ [j]) = some m)
    (hroot : m.root ≠ none) : m.parent_set = true := by
  rw [nodeAt_append] at hm
  cases hpar : nodeAt t q with
  | none => rw [hpar] at hm; exact absurd hm (by simp)
  | some par =>
    rw [hpar, Option.some_bind, nodeAt_singleton] at hm
    have hparinv := invMut_descend q t par hinv hpar
    cases par with
    | mk r subs d c ps =>
      simp only [subtrees_mk] at hm
      have hclause := (((invMut_mk_iff r subs d c ps).mp hparinv).2.2 m
        (mem_of_getElem?_eq_some hm)).1
      rcases hclause with h | h
      · exact h
      · exact absurd h hroot

theorem exists_take_append_getLast {q : List Nat} (hq : q ≠ []) :
    q = q.dropLast ++ [q.getLast hq] :=
  (List.dropLast_append_getLast hq).symm

theorem internal_root_ne_none {m : ATree} (hinv : invMut m = true)
    (hsub : m.subtrees ≠ []) : m.root ≠ none :=
  fun hr => hsub (invMut_empty_node hinv hr)

theorem subtrees_ne_nil_of_nodeAt {m x : ATree} {j : Nat} {p2 : List Nat}
    (h : nodeAt m (j :: p2) = some x) : m.subtrees ≠ [] := by
  intro hempty
  rw [nodeAt_cons, hempty] at h
  simp at h

theorem modifyAt_singleton (r : Option String) (subs : List ATree) (d : Int)
    (c : Colour) (ps : Bool) (i : Nat) (s : ATree) (f : ATree → ATree)
    (hq : subs[i]? = some s) :
    modifyAt (.mk r subs d c ps) [i] f = some (.mk r (subs.set i (f s)) d c ps) := by
  rw [modifyAt, hq]
  simp only [Option.bind_eq_bind, Option.some_bind]
  rw [show modifyAt s [] f = some (f s) from by cases s with | mk a b e g h => rfl]
  simp only [Option.some_bind]

theorem delete_stages (q : List Nat) (t nd : ATree) (hq : q ≠ [])
    (hn : nodeAt t q = some nd) (hps : nd.parent_set = true)
    (hch : chainOK t q.dropLast) :
    ∃ t1 t3 t4,
      modifyAt t q clearRootF = some t1 ∧ t1.parent_set = t.parent_set ∧
      update_size t1 q.dropLast (-nd.data_size)
        = some (addAlong t1 q.dropLast (-nd.data_size), t1.parent_set) ∧
      modifyAt (addAlong t1 q.dropLast (-nd.data_size)) q clearParentF = some t3 ∧
      modifyAt t3 q zeroSizeF = some t4 ∧
      delete t q = some (.ok t4) := by
  obtain ⟨t1, ht1, hn1, hanc1⟩ := modifyAt_spec q t nd clearRootF hn
  have hlen1 : 1 ≤ q.length := by
    cases q with
    | nil => exact absurd rfl hq
    | cons i q' => simp
  have hdll : q.dropLast.length = q.length - 1 := List.length_dropLast q
  have hps1 : t1.parent_set = t.parent_set := by
    obtain ⟨a, b, ha, hb, _, _, _, hpsb, _⟩ := hanc1 0 (by omega)
    simp only [List.take_zero, nodeAt_nil, Option.some_inj] at ha hb
    rw [ha, hb]
    exact hpsb
  have hch1 : chainOK t1 q.dropLast := by
    intro k hk
    rw [hdll] at hk
    obtain ⟨a, ha, hpsa⟩ := hch k (by rw [hdll]; exact hk)
    rw [take_dropLast_eq q (k + 1) (by omega)] at ha ⊢
    obtain ⟨a', b, ha', hb, _, _, _, hpsb, _⟩ := hanc1 (k + 1) (by omega)
    rw [ha] at ha'
    injection ha' with ha'
    exact ⟨b, hb, by rw [hpsb, ← ha', hpsa]⟩
  have hv1 : (nodeAt t1 q.dropLast).isSome := by
    rcases Nat.lt_or_ge 1 q.length with hgt | hle
    · obtain ⟨a, b, _, hb, _⟩ := hanc1 (q.length - 1) (by omega)
      rw [← take_dropLast_eq q (q.length - 1) (by omega),
        List.take_of_length_le (by rw [hdll])] at hb
      rw [hb]
      rfl
    · have : q.length = 1 := by omega
      have : q.dropLast = [] := List.eq_nil_of_length_eq_zero (by omega)
      rw [this]
      simp
  have hupd := update_size_eq_addAlong q.dropLast t1 (-nd.data_size) hch1 hv1
  have hn2 : nodeAt (addAlong t1 q.dropLast (-nd.data_size)) q = some (clearRootF nd) := by
    have hstep := nodeAt_addAlong_getLast q.dropLast (q.getLast hq) t1 (clearRootF nd)
      (-nd.data_size) (by rw [List.dropLast_append_getLast hq]; exact hn1)
    rw [List.dropLast_append_getLast hq] at hstep
    exact hstep
  obtain ⟨t3, ht3, hn3, hanc3⟩ := modifyAt_spec q _ (clearRootF nd) clearParentF hn2
  obtain ⟨t4, ht4, hn4, hanc4⟩ :=
    modifyAt_spec q t3 (clearParentF (clearRootF nd)) zeroSizeF hn3
  refine ⟨t1, t3, t4, ht1, hps1, hupd, ht3, ht4, ?_⟩
  rw [delete, hn]
  simp only [Option.bind_eq_bind, Option.some_bind]
  rw [ht1]
  simp only [Option.some_bind, hps, if_true]
  cases q with
  | nil => exact absurd rfl hq
  | cons i q' =>
    simp only [updateSizeAt, hupd, Option.map_some', Option.some_bind]
    rw [ht3]
    simp only [Option.some_bind]
    rw [ht4]
    simp only [Option.some_bind]

theorem delete_cons (r : Option String) (subs : List ATree) (d : Int) (c : Colour)
    (ps : Bool) (i : Nat) (q : List Nat) (s nd s' : ATree)
    (hi : subs[i]? = some s) (hq : q ≠ []) (hn : nodeAt s q = some nd)
    (hndps : nd.parent_set = true) (hsps : s.parent_set = true)
    (hch : chainOK s q.dropLast) (hdel : delete s q = some (.ok s')) :
    delete (.mk r subs d c ps) (i :: q)
      = some (.ok (.mk r (subs.set i s') (d - nd.data_size) c ps)) := by
  obtain ⟨s1, s3, s4, ht1, hps1, hupd, ht3, ht4, hdel'⟩ :=
    delete_stages q s nd hq hn hndps hch
  rw [hdel] at hdel'
  have hs4 : s' = s4 := by
    have h1 := Option.some_inj.mp hdel'
    injection h1
  subst hs4
  have hilt : i < subs.length := (List.getElem?_eq_some_iff.mp hi).1
  obtain ⟨j, q', rfl⟩ : ∃ j q', q = j :: q' := by
    cases q with
    | nil => exact absurd rfl hq
    | cons j q' => exact ⟨j, q', rfl⟩
  have hnode : nodeAt (ATree.mk r subs d c ps) (i :: j :: q') = some nd := by
    rw [nodeAt_cons]
    simp only [subtrees_mk]
    rw [hi, Option.some_bind]
    exact hn
  rw [delete, hnode]
  simp only [Option.bind_eq_bind, Option.some_bind]
  have hmod1 : modifyAt (ATree.mk r subs d c ps) (i :: j :: q') clearRootF
      = some (.mk r (subs.set i s1) d c ps) := by
    rw [modifyAt, hi]
    simp only [Option.bind_eq_bind, Option.some_bind]
    rw [ht1]
    simp only [Option.some_bind]
  rw [hmod1]
  simp only [Option.some_bind, hndps, if_true]
  have hdrop : (i :: j :: q').dropLast = i :: (j :: q').dropLast := rfl
  have hsetlt : i < (subs.set i s1).length := by
    rw [List.length_set]
    exact hilt
  have hupd2 : update_size (ATree.mk r (subs.set i s1) d c ps)
      ((i :: j :: q').dropLast) (-nd.data_size)
      = some (.mk r (subs.set i (addAlong s1 (j :: q').dropLast (-nd.data_size)))
          (d + -nd.data_size) c ps, ps) := by
    rw [hdrop, update_size]
    simp only [subtrees_mk]
    rw [List.getElem?_set_self hilt]
    simp only [Option.bind_eq_bind, Option.some_bind]
    rw [hupd]
    simp only [Option.some_bind]
    rw [hps1, hsps]
    simp only [if_true]
    rw [List.set_set]
  simp only [updateSizeAt, hupd2, Option.map_some', Option.some_bind]
  have hset2lt : i < (subs.set i (addAlong s1 (j :: q').dropLast (-nd.data_size))).length := by
    rw [List.length_set]
    exact hilt
  have hmod3 : modifyAt (ATree.mk r (subs.set i (addAlong s1 (j :: q').dropLast
      (-nd.data_size))) (d + -nd.data_size) c ps) (i :: j :: q') clearParentF
      = some (.mk r (subs.set i s3) (d + -nd.data_size) c ps) := by
    rw [modifyAt]
    rw [List.getElem?_set_self hilt]
    simp only [Option.bind_eq_bind, Option.some_bind]
    rw [ht3]
    simp only [Option.some_bind]
    rw [List.set_set]
  rw [hmod3]
  simp only [Option.some_bind]
  have hmod4 : modifyAt (ATree.mk r (subs.set i s3) (d + -nd.data_size) c ps)
      (i :: j :: q') zeroSizeF
      = some (.mk r (subs.set i s') (d + -nd.data_size) c ps) := by
    rw [modifyAt]
    rw [List.getElem?_set_self hilt]
    simp only [Option.bind_eq_bind, Option.some_bind]
    rw [ht4]
    simp only [Option.some_bind]
    rw [List.set_set]
  rw [hmod4]
  simp only [Option.some_bind]
  rw [Int.sub_eq_add_neg]

theorem addAlong_top : ∀ (q : List Nat) (t nd : ATree) (d : Int),
    nodeAt t q = some nd →
    (addAlong t q d).data_size = t.data_size + d ∧ (addAlong t q d).root = t.root ∧
    (addAlong t q d).colour = t.colour ∧ (addAlong t q d).parent_set = t.parent_set ∧
    (addAlong t q d).subtrees.length = t.subtrees.length
  | [], t, nd, d, _ => by
      cases t with
      | mk r subs ds c ps => simp [addAlong]
  | i :: q, t, nd, d, hn => by
      cases t with
      | mk r subs ds c ps =>
        rw [nodeAt_cons] at hn
        simp only [subtrees_mk] at hn
        cases hq : subs[i]? with
        | none => rw [hq] at hn; exact absurd hn (by simp)
        | some s => rw [addAlong, hq]; simp

theorem invMut_emptyLeaf (c : Colour) : invMut (.mk none [] 0 c false) = true := by
  rw [invMut_mk_iff]
  refine ⟨fun _ => rfl, fun h => absurd rfl h, ?_⟩
  intro s hs
  simp at hs

theorem invMut_root_ne_none {r : Option String} {subs : List ATree} {d : Int}
    {c : Colour} {ps : Bool} (h : invMut (.mk r subs d c ps) = true)
    (hne : subs ≠ []) : r ≠ none :=
  fun hr => hne (((invMut_mk_iff r subs d c ps).mp h).1 hr)

theorem addAlong_preserve : ∀ (q : List Nat) (t nd : ATree) (d : Int),
    invMut t = true → nodeAt t q = some nd → nd.subtrees = [] →
    invMut (addAlong t q d) = true
  | [], t, nd, d, hinv, hn, hleaf => by
      rw [nodeAt_nil, Option.some_inj] at hn
      subst hn
      cases t with
      | mk r subs ds c ps =>
        simp only [subtrees_mk] at hleaf
        subst hleaf
        rw [addAlong, invMut_mk_iff]
        exact ⟨fun _ => rfl, fun h => absurd rfl h, fun s hs => absurd hs (by simp)⟩
  | i :: q, t, nd, d, hinv, hn, hleaf => by
      cases t with
      | mk r subs ds c ps =>
        rw [nodeAt_cons] at hn
        simp only [subtrees_mk] at hn
        cases hq : subs[i]? with
        | none => rw [hq] at hn; exact absurd hn (by simp)
        | some s =>
          rw [hq, Option.some_bind] at hn
          have hsmem := mem_of_getElem?_eq_some hq
          have hsub_ne : subs ≠ [] := by
            intro habs
            rw [habs] at hq
            simp at hq
          obtain ⟨h1, h2, h3⟩ := (invMut_mk_iff r subs ds c ps).mp hinv
          have hih := addAlong_preserve q s nd d (invMut_child hinv hsmem) hn hleaf
          have htop := addAlong_top q s nd d hn
          rw [addAlong, hq, invMut_mk_iff]
          refine ⟨fun hr => absurd (h1 hr) hsub_ne, fun _ => ?_, fun x hx => ?_⟩
          · rw [sizesSum_set _ hq, htop.1, ← h2 hsub_ne]
            ring
          · rcases List.mem_or_eq_of_mem_set hx with hold | hnew
            · exact h3 x hold
            · subst hnew
              refine ⟨?_, hih⟩
              rcases (h3 s hsmem).1 with hp | hr
              · exact Or.inl (by rw [htop.2.2.2.1, hp])
              · exact Or.inr (by rw [htop.2.1, hr])

theorem delete_base (r : Option String) (subs : List ATree) (d : Int) (c : Colour)
    (ps : Bool) (i : Nat) (s : ATree) (hi : subs[i]? = some s)
    (hps : s.parent_set = true) :
    delete (.mk r subs d c ps) [i]
      = some (.ok (.mk r (subs.set i (.mk none s.subtrees 0 s.colour false))
          (d - s.data_size) c ps)) := by
  have hilt : i < subs.length := (List.getElem?_eq_some_iff.mp hi).1
  rw [delete]
  rw [show nodeAt (ATree.mk r subs d c ps) [i] = some s from by
    rw [nodeAt_singleton]; simpa using hi]
  simp only [Option.bind_eq_bind, Option.some_bind]
  rw [modifyAt_singleton r subs d c ps i s clearRootF hi]
  simp only [Option.some_bind, hps, if_true]
  have hupd : updateSizeAt (ATree.mk r (subs.set i (clearRootF s)) d c ps)
      ([i].dropLast) (-s.data_size)
      = some (.mk r (subs.set i (clearRootF s)) (d + -s.data_size) c ps) := by
    rw [show ([i] : List Nat).dropLast = [] from rfl, updateSizeAt, update_size]
    rfl
  rw [hupd]
  simp only [Option.some_bind]
  have hset : (subs.set i (clearRootF s))[i]? = some (clearRootF s) :=
    List.getElem?_set_self hilt
  have hm3 := modifyAt_singleton r (subs.set i (clearRootF s)) (d + -s.data_size) c ps
    i (clearRootF s) clearParentF hset
  rw [List.set_set] at hm3
  rw [hm3]
  simp only [Option.some_bind]
  have hset2 : (subs.set i (clearParentF (clearRootF s)))[i]? =
      some (clearParentF (clearRootF s)) :=
    List.getElem?_set_self hilt
  have hm4 := modifyAt_singleton r (subs.set i (clearParentF (clearRootF s)))
    (d + -s.data_size) c ps i (clearParentF (clearRootF s)) zeroSizeF hset2
  rw [List.set_set] at hm4
  rw [hm4]
  simp only [Option.some_bind]
  have : zeroSizeF (clearParentF (clearRootF s)) = .mk none s.subtrees 0 s.colour false := by
    cases s with
    | mk a b e g h => rfl
  rw [this, Int.sub_eq_add_neg]

theorem parentSet_of_invMut' (q : List Nat) (t nd : ATree) (hinv : invMut t = true)
    (hn : nodeAt t q = some nd) (hq : q ≠ []) (hroot : nd.root ≠ none) :
    nd.parent_set = true :=
  parentSet_of_invMut q.dropLast (q.getLast hq) t nd hinv
    (by rw [List.dropLast_append_getLast hq]; exact hn) hroot

theorem chainOK_dropLast_of_invMut (q : List Nat) (t nd : ATree)
    (hinv : invMut t = true) (hn : nodeAt t q = some nd) : chainOK t q.dropLast := by
  by_cases hq : q = []
  · subst hq
    intro k hk
    simp at hk
  · have hsplit := List.dropLast_append_getLast hq
    have hn' : nodeAt t (q.dropLast ++ [q.getLast hq]) = some nd := by
      rw [hsplit]; exact hn
    rw [nodeAt_append] at hn'
    cases hpar : nodeAt t q.dropLast with
    | none => rw [hpar] at hn'; exact absurd hn' (by simp)
    | some par =>
      rw [hpar, Option.some_bind, nodeAt_singleton] at hn'
      have hparne : par.subtrees ≠ [] := by
        intro habs
        rw [habs] at hn'
        simp at hn'
      have hparinv := invMut_descend q.dropLast t par hinv hpar
      refine chainOK_of_invMut q.dropLast t par hinv hpar ?_
      by_cases hdl : q.dropLast = []
      · exact Or.inl hdl
      · exact Or.inr (parentSet_of_invMut' q.dropLast t par hinv hpar hdl
          (internal_root_ne_none hparinv hparne))

theorem delete_preserve : ∀ (q : List Nat) (t nd : ATree),
    invMut t = true → nodeAt t q = some nd → nd.subtrees = [] → nd.root ≠ none →
    q ≠ [] → ∃ t', delete t q = some (.ok t') ∧ invMut t' = true
  | [], _, _, _, _, _, _, hq => absurd rfl hq
  | [i], t, nd, hinv, hn, hleaf, hroot, _ => by
      cases t with
      | mk r subs d c ps =>
        rw [nodeAt_singleton, subtrees_mk] at hn
        have hsub_ne : subs ≠ [] := by
          intro habs
          rw [habs] at hn
          simp at hn
        obtain ⟨h1, h2, h3⟩ := (invMut_mk_iff r subs d c ps).mp hinv
        have hmem := mem_of_getElem?_eq_some hn
        have hps : nd.parent_set = true := by
          rcases (h3 nd hmem).1 with h | h
          · exact h
          · exact absurd h hroot
        refine ⟨_, delete_base r subs d c ps i nd hn hps, ?_⟩
        rw [invMut_mk_iff]
        refine ⟨fun hr => absurd (h1 hr) hsub_ne, fun _ => ?_, fun x hx => ?_⟩
        · rw [sizesSum_set _ hn, ← h2 hsub_ne]
          simp only [data_size_mk]
          ring
        · rcases List.mem_or_eq_of_mem_set hx with hold | hnew
          · exact h3 x hold
          · subst hnew
            rw [hleaf]
            exact ⟨Or.inr rfl, invMut_emptyLeaf nd.colour⟩
  | i :: j :: q', t, nd, hinv, hn, hleaf, hroot, _ => by
      cases t with
      | mk r subs d c ps =>
        rw [nodeAt_cons] at hn
        simp only [subtrees_mk] at hn
        cases hi : subs[i]? with
        | none => rw [hi] at hn; exact absurd hn (by simp)
        | some s =>
          rw [hi, Option.some_bind] at hn
          have hsub_ne : subs ≠ [] := by
            intro habs
            rw [habs] at hi
            simp at hi
          obtain ⟨h1, h2, h3⟩ := (invMut_mk_iff r subs d c ps).mp hinv
          have hsmem := mem_of_getElem?_eq_some hi
          have hsinv := invMut_child hinv hsmem
          have hs_subs_ne : s.subtrees ≠ [] := subtrees_ne_nil_of_nodeAt hn
          have hs_root := internal_root_ne_none hsinv hs_subs_ne
          have hsps : s.parent_set = true := by
            rcases (h3 s hsmem).1 with h | h
            · exact h
            · exact absurd h hs_root
          have hcons_ne : (j :: q') ≠ [] := by simp
          have hndps : nd.parent_set = true :=
            parentSet_of_invMut' (j :: q') s nd hsinv hn hcons_ne hroot
          have hch := chainOK_dropLast_of_invMut (j :: q') s nd hsinv hn
          obtain ⟨s', hdel, hinvs'⟩ :=
            delete_preserve (j :: q') s nd hsinv hn hleaf hroot hcons_ne
          obtain ⟨s'', hdel'', hnode'', hanc''⟩ :=
            delete_char (j :: q') s nd hcons_ne hn hndps hch
          rw [hdel] at hdel''
          have hseq : s' = s'' := by
            have h0 := Option.some_inj.mp hdel''
            injection h0
          subst hseq
          obtain ⟨a0, b0, ha0, hb0, hb0r, hb0d, hb0c, hb0p, hb0l⟩ :=
            hanc'' 0 (by simp)
          simp only [List.take_zero, nodeAt_nil, Option.some_inj] at ha0 hb0
          subst ha0
          subst hb0
          refine ⟨_, delete_cons r subs d c ps i (j :: q') s nd s' hi hcons_ne hn
            hndps hsps hch hdel, ?_⟩
          rw [invMut_mk_iff]
          refine ⟨fun hr => absurd (h1 hr) hsub_ne, fun _ => ?_, fun x hx => ?_⟩
          · rw [sizesSum_set _ hi, ← h2 hsub_ne, hb0d]
            ring
          · rcases List.mem_or_eq_of_mem_set hx with hold | hnew
            · exact h3 x hold
            · subst hnew
              exact ⟨Or.inl (by rw [hb0p, hsps]), hinvs'⟩

theorem change_prop_eq_cpDelta (t : ATree) (p : List Nat) (proportion : ℚ) :
    change_prop t p proportion
      = (nodeAt t p).bind fun nd => updateSizeAt t p (cpDelta nd.data_size proportion) := rfl

theorem isLeafNode_iff (nd : ATree) :
    isLeafNode nd = true ↔ nd.subtrees = [] ∧ nd.root ≠ none := by
  rw [isLeafNode, Bool.and_eq_true, List.isEmpty_eq_true, Option.isSome_iff_ne_none]

theorem change_prop_char (q : List Nat) (t nd : ATree) (p : ℚ)
    (hn : nodeAt t q = some nd) (hch : chainOK t q) :
    change_prop t q p = some (addAlong t q (cpDelta nd.data_size p)) := by
  rw [change_prop_eq_cpDelta, hn, Option.some_bind, updateSizeAt,
    update_size_eq_addAlong q t _ hch (by rw [hn]; rfl), Option.map_some']

theorem chainOK_of_leaf (q : List Nat) (t nd : ATree) (hinv : invMut t = true)
    (hn : nodeAt t q = some nd) (hleaf : isLeafNode nd = true) : chainOK t q := by
  obtain ⟨_, hroot⟩ := (isLeafNode_iff nd).mp hleaf
  refine chainOK_of_invMut q t nd hinv hn ?_
  cases hq : q with
  | nil => exact Or.inl rfl
  | cons j q' =>
    exact Or.inr (parentSet_of_invMut' q t nd hinv hn (by rw [hq]; simp) hroot)

theorem change_prop_preserve (q : List Nat) (t nd : ATree) (p : ℚ)
    (hinv : invMut t = true) (hn : nodeAt t q = some nd)
    (hleaf : isLeafNode nd = true) :
    ∃ t', change_prop t q p = some t' ∧ invMut t' = true := by
  obtain ⟨hsubs, _⟩ := (isLeafNode_iff nd).mp hleaf
  refine ⟨_, change_prop_char q t nd p hn (chainOK_of_leaf q t nd hinv hn hleaf), ?_⟩
  exact addAlong_preserve q t nd _ hinv hn hsubs

theorem invMut_clearRoot_leaf (t : ATree) (hinv : invMut t = true)
    (hleaf : isLeafNode t = true) : invMut (clearRootF t) = true := by
  obtain ⟨hsubs, _⟩ := (isLeafNode_iff t).mp hleaf
  cases t with
  | mk r subs d c ps =>
    simp only [subtrees_mk] at hsubs
    subst hsubs
    rw [clearRootF, invMut_mk_iff]
    exact ⟨fun _ => rfl, fun h => absurd rfl h, fun s hs => absurd hs (by simp)⟩

theorem applyMut_preserve (t : ATree) (m : Mut) (hinv : invMut t = true) :
    invMut (applyMut t m) = true := by
  cases m with
  | del p =>
    rw [applyMut]
    cases hn : nodeAt t p with
    | none => exact hinv
    | some nd =>
      by_cases hleaf : isLeafNode nd = true
      · simp only [hleaf, if_true]
        obtain ⟨hsubs, hroot⟩ := (isLeafNode_iff nd).mp hleaf
        cases hp : p with
        | nil =>
          have hnd : nd = t := by
            rw [hp, nodeAt_nil] at hn
            exact (Option.some_inj.mp hn).symm
          subst hnd
          rw [delete]
          simp only [nodeAt_nil, Option.bind_eq_bind, Option.some_bind]
          rw [show modifyAt nd [] clearRootF = some (clearRootF nd) from by
            cases nd with | mk a b e g h => rfl]
          simp only [Option.some_bind]
          cases hps : nd.parent_set with
          | true =>
            simp only [if_true]
            exact hinv
          | false =>
            simp only [Bool.false_eq_true, if_false]
            exact invMut_clearRoot_leaf nd hinv hleaf
        | cons j q' =>
          obtain ⟨t', hdel, hinv'⟩ := delete_preserve (j :: q') t nd hinv
            (hp ▸ hn) hsubs hroot (by simp)
          rw [hdel]
          exact hinv'
      · simp only [hleaf, if_false]
        exact hinv
  | chg p prop =>
    rw [applyMut]
    cases hn : nodeAt t p with
    | none => exact hinv
    | some nd =>
      by_cases hleaf : isLeafNode nd = true
      · simp only [hleaf, if_true]
        obtain ⟨t', hchg, hinv'⟩ := change_prop_preserve p t nd prop hinv hn hleaf
        rw [hchg]
        exact hinv'
      · simp only [hleaf, if_false]
        exact hinv

theorem wfFull_iff (t : ATree) :
    wfFull t = true ↔ t.parent_set = false ∧ wfRec t = true := by
  rw [wfFull, Bool.and_eq_true, Bool.not_eq_true']

theorem applyMuts_preserve : ∀ (l : List Mut) (t : ATree),
    invMut t = true → invMut (applyMuts t l) = true
  | [], t, h => h
  | m :: l, t, h =>
      applyMuts_preserve l (applyMut t m) (applyMut_preserve t m h)

/-! ### The claims. -/

/-- **C3** (confirmed): for every well-formed tree and every sequence of
`delete()` and `change_prop()` mutations applied to its leaves (an address
that does not denote a leaf at application time is skipped), after each
mutation — i.e. after every prefix of the sequence — every node with at
least one subtree has `data_size` equal to the sum of its subtrees'
`data_size`, zero-weight subtrees included. -/
theorem c3_weight_conservation (t : ATree) (muts : List Mut)
    (h : wfFull t = true) :
    ∀ k : Nat, sumInv (applyMuts t (muts.take k)) = true := by
  intro k
  exact invMut_imp_sumInv _
    (applyMuts_preserve _ t (wfRec_imp_invMut t ((wfFull_iff t).mp h).2))

/-- Witness for **C3**: the concrete fixture satisfies the hypothesis and
the conclusion is delivered for the concrete mutation sequence. -/
theorem c3_weight_conservation_witness :
    wfFull c3tree = true ∧
    ∀ k : Nat, sumInv (applyMuts c3tree (c3muts.take k)) = true := by
  have h : wfFull c3tree = true := by
    simp [wfFull, wfRec, c3tree, mkLeaf, init, sizesSum, setParentTop]
  exact ⟨h, c3_weight_conservation c3tree c3muts h⟩

/-- **C5** (confirmed): `delete()` on a leaf (present label, no subtrees)
with a parent clears the label, zeroes the leaf's own weight, decreases the
weight of every former ancestor by exactly the leaf's former weight, clears
the parent reference, and leaves the node physically present at the same
path — its colour survives and every ancestor keeps the same label, colour,
parent reference and number of children. -/
theorem c5_delete_leaf (q : List Nat) (t nd : ATree) (hwf : wfFull t = true)
    (hn : nodeAt t q = some nd) (hleaf : isLeafNode nd = true) (hq : q ≠ []) :
    ∃ t', delete t q = some (.ok t') ∧
      nodeAt t' q = some (.mk none [] 0 nd.colour false) ∧
      ∀ k, k < q.length →
        ∃ a b, nodeAt t (q.take k) = some a ∧ nodeAt t' (q.take k) = some b ∧
          b.root = a.root ∧ b.data_size = a.data_size - nd.data_size ∧
          b.colour = a.colour ∧ b.parent_set = a.parent_set ∧
          b.subtrees.length = a.subtrees.length := by
  have hinv := wfRec_imp_invMut t ((wfFull_iff t).mp hwf).2
  obtain ⟨hsubs, hroot⟩ := (isLeafNode_iff nd).mp hleaf
  have hps := parentSet_of_invMut' q t nd hinv hn hq hroot
  have hch := chainOK_dropLast_of_invMut q t nd hinv hn
  obtain ⟨t', hdel, hnode, hanc⟩ := delete_char q t nd hq hn hps hch
  rw [hsubs] at hnode
  exact ⟨t', hdel, hnode, hanc⟩

/-- Witness for **C5**: deleting the weight-5 leaf at path `[0, 0]` of the
concrete fixture. -/
theorem c5_delete_leaf_witness :
    (wfFull c5tree = true ∧ nodeAt c5tree [0, 0]
        = some (.mk (some "a") [] 5 (1, 0, 0) true) ∧
      isLeafNode (ATree.mk (some "a") [] 5 (1, 0, 0) true) = true ∧
      ([0, 0] : List Nat) ≠ []) ∧
    (∃ t', delete c5tree [0, 0] = some (.ok t') ∧
      nodeAt t' [0, 0] = some (.mk none [] 0
        (ATree.mk (some "a") [] 5 (1, 0, 0) true).colour false) ∧
      ∀ k, k < ([0, 0] : List Nat).length →
        ∃ a b, nodeAt c5tree (([0, 0] : List Nat).take k) = some a ∧
          nodeAt t' (([0, 0] : List Nat).take k) = some b ∧
          b.root = a.root ∧
          b.data_size = a.data_size
            - (ATree.mk (some "a") [] 5 (1, 0, 0) true).data_size ∧
          b.colour = a.colour ∧ b.parent_set = a.parent_set ∧
          b.subtrees.length = a.subtrees.length) := by
  have hwf : wfFull c5tree = true := by
    simp [wfFull, wfRec, c5tree, mkLeaf, init, sizesSum, setParentTop]
  have hn : nodeAt c5tree [0, 0] = some (.mk (some "a") [] 5 (1, 0, 0) true) := rfl
  refine ⟨⟨hwf, hn, rfl, by simp⟩, ?_⟩
  exact c5_delete_leaf [0, 0] c5tree _ hwf hn rfl (by simp)

/-- **C8** (counterexample): invoking `delete()` on the node at path `[0]`
of `c8tree` violates the precondition (the node has a child), yet no error
is signalled — the call returns normally — and the tree is mutated: the
node's label is cleared while its child stays in place, and the root's
weight drops from 5 to 0.  This refutes the claim that a precondition
violation raises an explicit error and leaves the state untouched. -/
theorem c8_invalid_delete_not_rejected :
    (nodeAt c8tree [0]).map (fun n => (n.root, n.subtrees.length)) =
      some (some "m", 1) ∧
    (delete c8tree [0]).map (fun e =>
      match e with
      | .ok t' => (true, (nodeAt t' [0]).map (fun n => (n.root, n.data_size, n.subtrees.length)),
          (nodeAt t' []).map ATree.data_size)
      | .error _ => (false, none, none))
      = some (true, some (none, 0, 1), some 0) := by
  constructor <;> rfl

/-- **C8** (amended): `delete()` performs no precondition check.  Invoked on
any node with a parent reference — even one with children or an absent
label — it silently proceeds: the label is cleared, every ancestor's weight
drops by the node's weight, the parent reference is cleared and the weight
zeroed, while any children stay in place.  Invoked on a parentless node it
raises `AttributeError`, but only after the label has already been cleared,
so the state is partially mutated (everything except the label is
untouched). -/
theorem c8_delete_unchecked :
    (∀ (q : List Nat) (t nd : ATree), wfFull t = true → nodeAt t q = some nd →
      q ≠ [] → nd.parent_set = true →
      ∃ t', delete t q = some (.ok t') ∧
        nodeAt t' q = some (.mk none nd.subtrees 0 nd.colour false) ∧
        ∀ k, k < q.length →
          ∃ a b, nodeAt t (q.take k) = some a ∧ nodeAt t' (q.take k) = some b ∧
            b.root = a.root ∧ b.data_size = a.data_size - nd.data_size ∧
            b.colour = a.colour ∧ b.parent_set = a.parent_set ∧
            b.subtrees.length = a.subtrees.length) ∧
    (∀ t : ATree, wfFull t = true →
      delete t [] = some (.error (clearRootF t)) ∧ (clearRootF t).root = none ∧
        (clearRootF t).data_size = t.data_size ∧
        (clearRootF t).subtrees = t.subtrees ∧
        (clearRootF t).colour = t.colour) := by
  constructor
  · intro q t nd hwf hn hq hps
    have hinv := wfRec_imp_invMut t ((wfFull_iff t).mp hwf).2
    exact delete_char q t nd hq hn hps (chainOK_dropLast_of_invMut q t nd hinv hn)
  · intro t hwf
    have hps : t.parent_set = false := ((wfFull_iff t).mp hwf).1
    refine ⟨?_, ?_, ?_, ?_, ?_⟩
    · rw [delete]
      simp only [nodeAt_nil, Option.bind_eq_bind, Option.some_bind]
      rw [show modifyAt t [] clearRootF = some (clearRootF t) from by
        cases t with | mk a b e g h => rfl]
      simp only [Option.some_bind, hps, Bool.false_eq_true, if_false]
    all_goals cases t with | mk a b e g h => rfl

/-- Witness for **C8** (amended): both branches at concrete inputs — the
silently-deleted internal node of `c8tree`, and the erroring parentless
root delete. -/
theorem c8_delete_unchecked_witness :
    (wfFull c8tree = true ∧
      nodeAt c8tree [0] = some (.mk (some "m")
        [ATree.mk (some "a") [] 5 (1, 0, 0) true] 5 (2, 0, 0) true) ∧
      (([0] : List Nat) ≠ []) ∧
      (ATree.mk (some "m") [ATree.mk (some "a") [] 5 (1, 0, 0) true]
        5 (2, 0, 0) true).parent_set = true) ∧
    (∃ t', delete c8tree [0] = some (.ok t')) ∧
    delete c8tree [] = some (.error (clearRootF c8tree)) := by
  have hwf : wfFull c8tree = true := by
    simp [wfFull, wfRec, c8tree, mkLeaf, init, sizesSum, setParentTop]
  have hn : nodeAt c8tree [0] = some (.mk (some "m")
      [ATree.mk (some "a") [] 5 (1, 0, 0) true] 5 (2, 0, 0) true) := rfl
  refine ⟨⟨hwf, hn, by simp, rfl⟩, ?_, (c8_delete_unchecked.2 c8tree hwf).1⟩
  obtain ⟨t', hdel, -⟩ := c8_delete_unchecked.1 [0] c8tree _ hwf hn (by simp) rfl
  exact ⟨t', hdel⟩

theorem change_prop_applied (q : List Nat) (t nd : ATree) (p : ℚ)
    (hwf : wfFull t = true) (hn : nodeAt t q = some nd)
    (hw : 1 ≤ nd.data_size) :
    change_prop t q p = some (addAlong t q (cpDelta nd.data_size p)) := by
  have hwrec := ((wfFull_iff t).mp hwf).2
  have hinv := wfRec_imp_invMut t hwrec
  have hndwf := wfRec_descend q t nd hwrec hn
  have hroot : nd.root ≠ none := by
    intro hr
    cases nd with
    | mk r subs d c ps =>
      have := ((wfRec_mk_iff r subs d c ps).mp hndwf).1 (by simpa using hr)
      simp only [data_size_mk] at hw
      omega
  have hchain : chainOK t q := by
    refine chainOK_of_invMut q t nd hinv hn ?_
    cases hq : q with
    | nil => exact Or.inl rfl
    | cons j q' =>
      exact Or.inr (parentSet_of_invMut' q t nd hinv hn (by rw [hq]; simp) hroot)
  exact change_prop_char q t nd p hn hchain

/-- **C9** (confirmed): on a node of weight w ≥ 1, for a proportion whose
clamp does not trigger, `change_prop(p)` changes the node's weight and the
weight of every ancestor by exactly `ceil(w * |p|)` taken with the sign of
`p` (all other attributes are untouched). -/
theorem c9_resize_exact_delta (q : List Nat) (t nd : ATree) (p : ℚ)
    (hwf : wfFull t = true) (hn : nodeAt t q = some nd)
    (hw : 1 ≤ nd.data_size)
    (hnoclamp : ¬(nd.data_size + (if 0 ≤ p then ⌈(nd.data_size : ℚ) * |p|⌉
        else -⌈(nd.data_size : ℚ) * |p|⌉) < 1)) :
    ∃ t', change_prop t q p = some t' ∧
      nodeAt t' q = some (.mk nd.root nd.subtrees
        (nd.data_size + (if 0 ≤ p then ⌈(nd.data_size : ℚ) * |p|⌉
          else -⌈(nd.data_size : ℚ) * |p|⌉)) nd.colour nd.parent_set) ∧
      ∀ k, k < q.length →
        ∃ a b, nodeAt t (q.take k) = some a ∧ nodeAt t' (q.take k) = some b ∧
          b.data_size = a.data_size + (if 0 ≤ p then ⌈(nd.data_size : ℚ) * |p|⌉
            else -⌈(nd.data_size : ℚ) * |p|⌉) ∧
          b.root = a.root ∧ b.colour = a.colour ∧ b.parent_set = a.parent_set ∧
          b.subtrees.length = a.subtrees.length := by
  have habs : (if 0 ≤ p then ⌈(nd.data_size : ℚ) * p⌉
      else -⌈(nd.data_size : ℚ) * |p|⌉)
      = (if 0 ≤ p then ⌈(nd.data_size : ℚ) * |p|⌉
        else -⌈(nd.data_size : ℚ) * |p|⌉) := by
    by_cases hp : 0 ≤ p
    · simp [hp, abs_of_nonneg hp]
    · simp [hp]
  have hδ : cpDelta nd.data_size p
      = (if 0 ≤ p then ⌈(nd.data_size : ℚ) * |p|⌉
        else -⌈(nd.data_size : ℚ) * |p|⌉) := by
    rw [cpDelta]
    simp only [habs]
    rw [if_neg hnoclamp]
  have hcp := change_prop_applied q t nd p hwf hn hw
  rw [hδ] at hcp
  refine ⟨_, hcp, ?_, ?_⟩
  · exact (addAlong_spec q t nd _ hn).1
  · intro k hk
    obtain ⟨a, b, ha, hb, hrr, hdd, hcc, hpp, hll⟩ := (addAlong_spec q t nd _ hn).2 k hk
    exact ⟨a, b, ha, hb, hdd, hrr, hcc, hpp, hll⟩

/-- Witness for **C9**: concrete scenario 3 — the weight-100 leaf of
`c9tree` resized by `1/4` ends at weight 125, and the parent's weight grows
by exactly 25 (from 150 to 175). -/
theorem c9_resize_exact_delta_witness :
    (wfFull c9tree = true ∧
      nodeAt c9tree [0] = some (.mk (some "a") [] 100 (1, 0, 0) true) ∧
      (1 : Int) ≤ 100 ∧
      ¬((100 : Int) + (if 0 ≤ (1/4 : ℚ) then ⌈(100 : ℚ) * |(1/4 : ℚ)|⌉
          else -⌈(100 : ℚ) * |(1/4 : ℚ)|⌉) < 1)) ∧
    ∃ t', change_prop c9tree [0] (1/4 : ℚ) = some t' ∧
      (nodeAt t' [0]).map ATree.data_size = some 125 ∧
      (nodeAt t' []).map ATree.data_size = some 175 := by
  have hceil : ⌈(100 : ℚ) * |(1/4 : ℚ)|⌉ = 25 := by
    rw [show |(1/4 : ℚ)| = 1/4 from abs_of_nonneg (by norm_num)]
    norm_num
  have hwf : wfFull c9tree = true := by
    simp [wfFull, wfRec, c9tree, mkLeaf, init, sizesSum, setParentTop]
  have hn : nodeAt c9tree [0] = some (.mk (some "a") [] 100 (1, 0, 0) true) := rfl
  have hnoclamp : ¬((100 : Int) + (if 0 ≤ (1/4 : ℚ) then ⌈(100 : ℚ) * |(1/4 : ℚ)|⌉
      else -⌈(100 : ℚ) * |(1/4 : ℚ)|⌉) < 1) := by
    rw [if_pos (by norm_num), hceil]
    norm_num
  refine ⟨⟨hwf, hn, by norm_num, hnoclamp⟩, ?_⟩
  obtain ⟨t', hcp, hnode, hanc⟩ :=
    c9_resize_exact_delta [0] c9tree (.mk (some "a") [] 100 (1, 0, 0) true)
      (1/4 : ℚ) hwf hn (by norm_num) (by simpa using hnoclamp)
  simp only [data_size_mk, root_mk, subtrees_mk, colour_mk, parent_set_mk] at hnode hanc
  have hceil2 : ⌈((100 : Int) : ℚ) * |(1/4 : ℚ)|⌉ = 25 := by exact_mod_cast hceil
  rw [hceil2] at hnode
  refine ⟨t', hcp, ?_, ?_⟩
  · rw [hnode]
    norm_num
  · obtain ⟨a, b, ha, hb, hd, -⟩ := hanc 0 (by simp)
    simp only [List.take_zero, nodeAt_nil, Option.some_inj] at ha hb
    rw [if_pos (by norm_num : (0:ℚ) ≤ 1/4), hceil2] at hd
    have hasz : a.data_size = 150 := by
      rw [← ha]
      rfl
    rw [hb, nodeAt_nil, Option.map_some', hd, hasz]
    norm_num

/-- **C10** (confirmed): on a node of weight ≥ 1, `change_prop(p)` with any
positive proportion strictly increases the node's weight and every
ancestor's weight by the computed delta `ceil(weight * p)`, which is at
least 1 — growing by an arbitrarily small positive proportion is never a
no-op. -/
theorem c10_positive_growth (q : List Nat) (t nd : ATree) (p : ℚ)
    (hwf : wfFull t = true) (hn : nodeAt t q = some nd)
    (hw : 1 ≤ nd.data_size) (hp : 0 < p) :
    ∃ t', change_prop t q p = some t' ∧ 1 ≤ ⌈(nd.data_size : ℚ) * p⌉ ∧
      nodeAt t' q = some (.mk nd.root nd.subtrees
        (nd.data_size + ⌈(nd.data_size : ℚ) * p⌉) nd.colour nd.parent_set) ∧
      ∀ k, k < q.length →
        ∃ a b, nodeAt t (q.take k) = some a ∧ nodeAt t' (q.take k) = some b ∧
          b.data_size = a.data_size + ⌈(nd.data_size : ℚ) * p⌉ := by
  have hδpos : 1 ≤ ⌈(nd.data_size : ℚ) * p⌉ := by
    have hpos : (0 : ℚ) < (nd.data_size : ℚ) * p := by
      refine mul_pos ?_ hp
      exact_mod_cast lt_of_lt_of_le zero_lt_one hw
    exact Int.ceil_pos.mpr hpos
  have hδ : cpDelta nd.data_size p = ⌈(nd.data_size : ℚ) * p⌉ := by
    rw [cpDelta]
    simp only [if_pos hp.le]
    rw [if_neg (by omega)]
  have hcp := change_prop_applied q t nd p hwf hn hw
  rw [hδ] at hcp
  refine ⟨_, hcp, hδpos, (addAlong_spec q t nd _ hn).1, ?_⟩
  intro k hk
  obtain ⟨a, b, ha, hb, hrr, hdd, -⟩ := (addAlong_spec q t nd _ hn).2 k hk
  exact ⟨a, b, ha, hb, hdd⟩

/-- Witness for **C10**: the weight-1 leaf of `c10tree` grown by the tiny
proportion `1/1000` still gains at least 1. -/
theorem c10_positive_growth_witness :
    (wfFull c10tree = true ∧
      nodeAt c10tree [0] = some (.mk (some "a") [] 1 (1, 0, 0) true) ∧
      (1 : Int) ≤ 1 ∧ (0 : ℚ) < 1/1000) ∧
    ∃ t', change_prop c10tree [0] (1/1000 : ℚ) = some t' ∧
      1 ≤ ⌈((1 : Int) : ℚ) * (1/1000 : ℚ)⌉ ∧
      (nodeAt t' [0]).map ATree.data_size = some 2 := by
  have hwf : wfFull c10tree = true := by
    simp [wfFull, wfRec, c10tree, mkLeaf, init, sizesSum, setParentTop]
  have hn : nodeAt c10tree [0] = some (.mk (some "a") [] 1 (1, 0, 0) true) := rfl
  refine ⟨⟨hwf, hn, le_refl 1, by norm_num⟩, ?_⟩
  obtain ⟨t', hcp, hδ, hnode, -⟩ :=
    c10_positive_growth [0] c10tree (.mk (some "a") [] 1 (1, 0, 0) true)
      (1/1000 : ℚ) hwf hn (by norm_num) (by norm_num)
  simp only [data_size_mk, root_mk, subtrees_mk, colour_mk, parent_set_mk] at hnode hδ
  have hceil : ⌈((1 : Int) : ℚ) * (1/1000 : ℚ)⌉ = 1 := by
    rw [show ((1 : Int) : ℚ) * (1/1000 : ℚ) = 1/1000 by norm_num, Int.ceil_eq_iff] <;> norm_num
  refine ⟨t', hcp, by rw [hceil], ?_⟩
  rw [hceil] at hnode
  rw [hnode]
  rfl

/-- **C1** (code bug): at the tree `c1tree`, rectangle `(0, 0, 10, 1)` and
point `(7, 0)`, `leaf_at` returns the weight-1 leaf `L2` (colour
`(4, 0, 0)`) — found via the pre-stretch proportional layout of subtree `C`
and returned early at the next loop iteration — while in the output of
`generate_treemap` on the same tree state and rectangle the only rectangle
containing the point is that of leaf `L1` (colour `(3, 0, 0)`), and `L2`'s
returned rectangle `(8, 0, 2, 1)` does not contain the point: the claimed
`leaf_at` / `generate_treemap` equivalence fails. -/
theorem c1_hit_test_mismatch :
    leaf_at c1tree (7, 0) ⟨0, 0, 10, 1⟩
        = some (some (.mk (some "L2") [] 1 (4, 0, 0) true)) ∧
    generate_treemap c1tree ⟨0, 0, 10, 1⟩ = some c1out ∧
    (c1out.filter (fun e => inRectI (7, 0) e.1)).map Prod.snd = [(3, 0, 0)] ∧
    (ATree.mk (some "L2") [] 1 (4, 0, 0) true).colour = (4, 0, 0) ∧
    ((4, 0, 0) : Colour) ≠ (3, 0, 0) := by
  refine ⟨leafAtF_agree 3 _ _ _ _ rfl, genTreemapF_agree 3 _ _ _ rfl, by decide, rfl, by decide⟩

/-- **C2** (counterexample): the empty tree satisfies the representation
invariants, yet `generate_treemap` over the rectangle `(0, 0, 1, 1)`
returns no rectangles at all, so the union of the returned rectangles
misses the point `(0, 0)` of the input rectangle: the tiling claim fails
for well-formed trees of total weight 0. -/
theorem c2_tiling_fails_for_zero_weight :
    wfFull c2empty = true ∧ wfSizes c2empty = true ∧
    generate_treemap c2empty ⟨0, 0, 1, 1⟩ = some [] ∧
    memRect (0, 0) ⟨0, 0, 1, 1⟩ ∧
    ¬∃ e ∈ ([] : List Entry), memRect (0, 0) e.1 := by
  refine ⟨?_, ?_, ?_, ?_, by simp⟩
  · simp [wfFull, wfRec, c2empty]
  · simp [wfSizes, c2empty]
  · exact genTreemapF_agree 1 _ _ _ rfl
  · refine ⟨by norm_num, by norm_num, by norm_num, by norm_num⟩

/-- **C4** (counterexample): constructing a node from a non-empty subtree
list together with the explicit weight 3 yields weight `3 + 5 = 8`, not the
children's sum 5: the explicit weight argument is added in, not ignored. -/
theorem c4_explicit_weight_not_ignored :
    (init (some "n") [mkLeaf "a" 5 (1, 0, 0)] 3 (0, 0, 0)).data_size = 8 ∧
    sizesSum [mkLeaf "a" 5 (1, 0, 0)] = 5 ∧ (8 : Int) ≠ 5 := by
  refine ⟨rfl, rfl, by decide⟩

/-- **C4** (amended): constructing a node with a non-empty subtree list
gives it weight equal to the explicit weight argument plus the sum of the
subtrees' weights — so the children's sum exactly when the argument is left
at its default 0, as the documented precondition requires — and sets every
subtree's parent reference while preserving the subtrees' other attributes
and order. -/
theorem c4_init_weight_and_parents (root : Option String) (subtrees : List ATree)
    (data_size : Int) (colour : Colour) (h : subtrees ≠ []) :
    (init root subtrees data_size colour).data_size = data_size + sizesSum subtrees ∧
    (init root subtrees 0 colour).data_size = sizesSum subtrees ∧
    (init root subtrees data_size colour).subtrees.map ATree.root
      = subtrees.map ATree.root ∧
    (init root subtrees data_size colour).subtrees.map ATree.data_size
      = subtrees.map ATree.data_size ∧
    (init root subtrees data_size colour).subtrees.map ATree.colour
      = subtrees.map ATree.colour ∧
    ∀ s ∈ (init root subtrees data_size colour).subtrees, s.parent_set = true := by
  have hne : ¬subtrees.isEmpty = true := by simpa using h
  rw [init, init, if_neg hne, if_neg hne]
  have hroot : ∀ s : ATree, (setParentTop s).root = s.root := by
    intro s
    cases s with | mk a b c d e => rfl
  have hsize : ∀ s : ATree, (setParentTop s).data_size = s.data_size := by
    intro s
    cases s with | mk a b c d e => rfl
  have hcol : ∀ s : ATree, (setParentTop s).colour = s.colour := by
    intro s
    cases s with | mk a b c d e => rfl
  have hps : ∀ s : ATree, (setParentTop s).parent_set = true := by
    intro s
    cases s with | mk a b c d e => rfl
  refine ⟨rfl, by simp, ?_, ?_, ?_, ?_⟩
  · simp only [subtrees_mk, List.map_map]
    exact List.map_congr_left (fun s _ => hroot s)
  · simp only [subtrees_mk, List.map_map]
    exact List.map_congr_left (fun s _ => hsize s)
  · simp only [subtrees_mk, List.map_map]
    exact List.map_congr_left (fun s _ => hcol s)
  · intro s hs
    simp only [subtrees_mk, List.mem_map] at hs
    obtain ⟨x, -, rfl⟩ := hs
    exact hps x

/-- Witness for **C4** (amended): a concrete two-leaf construction. -/
theorem c4_init_weight_and_parents_witness :
    ([mkLeaf "a" 5 (1, 0, 0), mkLeaf "b" 7 (2, 0, 0)] ≠ ([] : List ATree)) ∧
    ((init (some "n") [mkLeaf "a" 5 (1, 0, 0), mkLeaf "b" 7 (2, 0, 0)] 3
        (0, 0, 0)).data_size = 3 + sizesSum [mkLeaf "a" 5 (1, 0, 0), mkLeaf "b" 7 (2, 0, 0)] ∧
      (init (some "n") [mkLeaf "a" 5 (1, 0, 0), mkLeaf "b" 7 (2, 0, 0)] 0
        (0, 0, 0)).data_size = sizesSum [mkLeaf "a" 5 (1, 0, 0), mkLeaf "b" 7 (2, 0, 0)] ∧
      (init (some "n") [mkLeaf "a" 5 (1, 0, 0), mkLeaf "b" 7 (2, 0, 0)] 3
        (0, 0, 0)).subtrees.map ATree.root
        = [mkLeaf "a" 5 (1, 0, 0), mkLeaf "b" 7 (2, 0, 0)].map ATree.root ∧
      (init (some "n") [mkLeaf "a" 5 (1, 0, 0), mkLeaf "b" 7 (2, 0, 0)] 3
        (0, 0, 0)).subtrees.map ATree.data_size
        = [mkLeaf "a" 5 (1, 0, 0), mkLeaf "b" 7 (2, 0, 0)].map ATree.data_size ∧
      (init (some "n") [mkLeaf "a" 5 (1, 0, 0), mkLeaf "b" 7 (2, 0, 0)] 3
        (0, 0, 0)).subtrees.map ATree.colour
        = [mkLeaf "a" 5 (1, 0, 0), mkLeaf "b" 7 (2, 0, 0)].map ATree.colour ∧
      ∀ s ∈ (init (some "n") [mkLeaf "a" 5 (1, 0, 0), mkLeaf "b" 7 (2, 0, 0)] 3
        (0, 0, 0)).subtrees, s.parent_set = true) := by
  refine ⟨by simp, ?_⟩
  exact c4_init_weight_and_parents (some "n") _ 3 (0, 0, 0) (by simp)

/-- **C6** (code bug): on the weight-3 leaf of `c6tree`,
`change_prop(-9/10)` computes the naive delta `-ceil(2.7) = -3`; since
`3 - 3 < 1` the clamp replaces the delta by `data_size - 1 = +2` — a
positive value — so the leaf ends at weight `5` (and the parent at `5`),
not at the claimed weight `1`. -/
theorem c6_resize_clamp_sign_bug :
    (change_prop c6tree [0] (-(9/10) : ℚ)).map (fun t =>
      ((nodeAt t [0]).map ATree.data_size, (nodeAt t []).map ATree.data_size))
      = some (some 5, some 5) ∧ (5 : Int) ≠ 1 := by
  have habs : |(-(9/10) : ℚ)| = 9/10 := by
    rw [abs_neg, abs_of_nonneg]
    norm_num
  have hceil : ⌈(3 : ℚ) * (9/10 : ℚ)⌉ = 3 := by
    rw [Int.ceil_eq_iff] <;> norm_num
  have hneg : ¬((9 : ℚ)/10 ≤ 0) := by norm_num
  constructor
  · simp [change_prop, c6tree, mkLeaf, init, nodeAt, update_size, updateSizeAt,
      sizesSum, setParentTop, habs, hceil, hneg]
  · decide

/-- **C7** (code bug): `change_prop` on the zero-weight leaf of `c7tree`
(with any proportion, here `1/2`) is not a no-op: the naive delta is 0, the
clamp replaces it by `data_size - 1 = -1`, and the update drives the leaf's
weight to `-1` and decrements the parent's weight to `-1` as well —
contradicting both the claim and the method's own "data size will never go
below 1" docstring. -/
theorem c7_zero_weight_resize_not_noop :
    (change_prop c7tree [0] (1/2 : ℚ)).map (fun t =>
      ((nodeAt t [0]).map ATree.data_size, (nodeAt t []).map ATree.data_size))
      = some (some (-1), some (-1)) ∧ ((-1 : Int) ≠ 0) := by
  constructor
  · simp [change_prop, c7tree, mkLeaf, init, nodeAt, update_size, updateSizeAt,
      sizesSum, setParentTop]
  · decide

/-! ### C2: tiling of the layout output.  Helper lemmas. -/

theorem attach_map_sum_int (l : List ATree) (f : ATree → Int) :
    (l.attach.map fun s => f s.val).sum = (l.map f).sum := by
  rw [List.attach_map_val l f]

theorem attach_map_sum_nat (l : List ATree) (f : ATree → Nat) :
    (l.attach.map fun s => f s.val).sum = (l.map f).sum := by
  rw [List.attach_map_val l f]

theorem posLeafCount_mk_nil (r : Option String) (d : Int) (c : Colour) (ps : Bool) :
    posLeafCount (.mk r [] d c ps) = if 0 < d then 1 else 0 := by
  rw [posLeafCount]

theorem posLeafCount_mk_cons (r : Option String) (s0 : ATree) (subs : List ATree)
    (d : Int) (c : Colour) (ps : Bool) :
    posLeafCount (.mk r (s0 :: subs) d c ps) = ((s0 :: subs).map posLeafCount).sum := by
  rw [posLeafCount, attach_map_sum_nat]

theorem member_le_sizesSum {l : List ATree} {s : ATree} (hs : s ∈ l)
    (hnn : ∀ u ∈ l, 0 ≤ u.data_size) : s.data_size ≤ sizesSum l := by
  refine List.single_le_sum ?_ _ (List.mem_map_of_mem ATree.data_size hs)
  intro x hx
  obtain ⟨u, hu, rfl⟩ := List.exists_of_mem_map hx
  exact hnn u hu

theorem posLeafCount_zero (t : ATree) (hwf : wfSizes t = true)
    (hz : t.data_size = 0) : posLeafCount t = 0 := by
  induction t using atree_ind with
  | step t ih =>
    cases t with
    | mk r subs d c ps =>
      obtain ⟨h1, h2, h3⟩ := (wfSizes_mk_iff r subs d c ps).mp hwf
      cases subs with
      | nil =>
        rw [posLeafCount_mk_nil]
        simp only [data_size_mk] at hz
        simp [hz]
      | cons s0 rest =>
        rw [posLeafCount_mk_cons]
        refine List.sum_eq_zero ?_
        intro x hx
        obtain ⟨s, hs, rfl⟩ := List.exists_of_mem_map hx
        refine ih s (by simpa using hs) (h3 s hs) ?_
        have hd : d = sizesSum (s0 :: rest) := h2 (by simp)
        simp only [data_size_mk] at hz
        have hle : s.data_size ≤ sizesSum (s0 :: rest) :=
          member_le_sizesSum hs (fun u hu => wfSizes_nonneg u (h3 u hu))
        have hge : 0 ≤ s.data_size := wfSizes_nonneg s (h3 s hs)
        omega

theorem posLeafCount_pos (t : ATree) (hwf : wfSizes t = true)
    (hpos : 0 < t.data_size) : 0 < posLeafCount t := by
  induction t using atree_ind with
  | step t ih =>
    cases t with
    | mk r subs d c ps =>
      obtain ⟨h1, h2, h3⟩ := (wfSizes_mk_iff r subs d c ps).mp hwf
      simp only [data_size_mk] at hpos
      cases subs with
      | nil =>
        rw [posLeafCount_mk_nil]
        simp [hpos]
      | cons s0 rest =>
        have hd : d = sizesSum (s0 :: rest) := h2 (by simp)
        have hex : ∃ s ∈ (s0 :: rest), 0 < s.data_size := by
          by_contra hno
          push_neg at hno
          have hsum : sizesSum (s0 :: rest) ≤ ((s0 :: rest).map (fun _ => (0 : Int))).sum :=
            List.sum_le_sum (fun u hu => hno u hu)
          simp only [List.map_const', List.sum_replicate, smul_zero] at hsum
          omega
        obtain ⟨s, hs, hspos⟩ := hex
        have hcnt : 0 < posLeafCount s := ih s (by simpa using hs) (h3 s hs) hspos
        rw [posLeafCount_mk_cons]
        have hge := List.single_le_sum (fun (x : Nat) _ => Nat.zero_le x) _
          (List.mem_map_of_mem posLeafCount hs)
        omega

theorem gen_zero (t : ATree) (r : Rect) (hz : t.data_size = 0) :
    generate_treemap t r = some [] := by
  rw [generate_treemap]
  simp [hz]

theorem tiles_single (r : Rect) (c : Colour) (hw : 0 ≤ r.w) (hh : 0 ≤ r.h) :
    tiles [(r, c)] r := by
  refine ⟨?_, ?_, ?_⟩
  · intro p
    constructor
    · intro hp
      exact ⟨(r, c), List.mem_singleton_self _, hp⟩
    · rintro ⟨e, he, hpe⟩
      rw [List.mem_singleton] at he
      subst he
      exact hpe
  · exact List.pairwise_singleton _ _
  · intro e he
    rw [List.mem_singleton] at he
    subst he
    exact ⟨le_refl _, le_refl _, le_refl _, le_refl _, hw, hh⟩

theorem tiles_append_v (l1 l2 : List Entry) (x0 yy w1 w2 hh : Int)
    (h1 : tiles l1 ⟨x0, yy, w1, hh⟩) (h2 : tiles l2 ⟨x0 + w1, yy, w2, hh⟩)
    (hw1 : 0 ≤ w1) (hw2 : 0 ≤ w2) :
    tiles (l1 ++ l2) ⟨x0, yy, w1 + w2, hh⟩ := by
  obtain ⟨hc1, hd1, hi1⟩ := h1
  obtain ⟨hc2, hd2, hi2⟩ := h2
  have hw1' : (0 : ℚ) ≤ (w1 : ℚ) := by exact_mod_cast hw1
  have hw2' : (0 : ℚ) ≤ (w2 : ℚ) := by exact_mod_cast hw2
  refine ⟨?_, ?_, ?_⟩
  · intro p
    have hc1p := hc1 p
    have hc2p := hc2 p
    simp only [memRect] at hc1p hc2p ⊢
    constructor
    · rintro ⟨hx1, hx2, hy1, hy2⟩
      push_cast at hx2
      rcases le_or_lt p.1 ((x0 : ℚ) + (w1 : ℚ)) with hsp | hsp
      · obtain ⟨e, he, hpe⟩ := hc1p.mp ⟨hx1, hsp, hy1, hy2⟩
        exact ⟨e, List.mem_append_left _ he, hpe⟩
      · obtain ⟨e, he, hpe⟩ := hc2p.mp
          (by push_cast; refine ⟨le_of_lt hsp, ?_, hy1, hy2⟩; linarith)
        exact ⟨e, List.mem_append_right _ he, hpe⟩
    · rintro ⟨e, he, hpe⟩
      rcases List.mem_append.mp he with he | he
      · obtain ⟨ha, hb, hcc, hdd⟩ := hc1p.mpr ⟨e, he, hpe⟩
        push_cast at ha hb hcc hdd ⊢
        refine ⟨ha, by linarith, hcc, hdd⟩
      · obtain ⟨ha, hb, hcc, hdd⟩ := hc2p.mpr ⟨e, he, hpe⟩
        push_cast at ha hb hcc hdd ⊢
        refine ⟨by linarith, by linarith, hcc, hdd⟩
  · rw [disjointInteriors, List.pairwise_append]
    refine ⟨hd1, hd2, ?_⟩
    intro a ha b hb p hab
    obtain ⟨hpa, hpb⟩ := hab
    have hia := hi1 a ha
    have hib := hi2 b hb
    simp only [rectInside] at hia hib
    simp only [memIntr] at hpa hpb
    obtain ⟨-, ha2, -, -, -, -⟩ := hia
    obtain ⟨hb1, -, -, -, -, -⟩ := hib
    obtain ⟨-, hpa2, -, -⟩ := hpa
    obtain ⟨hpb1, -, -, -⟩ := hpb
    have ha2' : (a.1.x : ℚ) + a.1.w ≤ (x0 : ℚ) + w1 := by exact_mod_cast ha2
    have hb1' : (x0 : ℚ) + w1 ≤ (b.1.x : ℚ) := by exact_mod_cast hb1
    push_cast at hpa2 hpb1
    linarith
  · intro e he
    rcases List.mem_append.mp he with he | he
    · have := hi1 e he
      simp only [rectInside] at this ⊢
      omega
    · have := hi2 e he
      simp only [rectInside] at this ⊢
      omega

theorem tiles_append_h (l1 l2 : List Entry) (xx y0 h1 h2 ww : Int)
    (ht1 : tiles l1 ⟨xx, y0, ww, h1⟩) (ht2 : tiles l2 ⟨xx, y0 + h1, ww, h2⟩)
    (hh1 : 0 ≤ h1) (hh2 : 0 ≤ h2) :
    tiles (l1 ++ l2) ⟨xx, y0, ww, h1 + h2⟩ := by
  obtain ⟨hc1, hd1, hi1⟩ := ht1
  obtain ⟨hc2, hd2, hi2⟩ := ht2
  have hh1' : (0 : ℚ) ≤ (h1 : ℚ) := by exact_mod_cast hh1
  have hh2' : (0 : ℚ) ≤ (h2 : ℚ) := by exact_mod_cast hh2
  refine ⟨?_, ?_, ?_⟩
  · intro p
    have hc1p := hc1 p
    have hc2p := hc2 p
    simp only [memRect] at hc1p hc2p ⊢
    constructor
    · rintro ⟨hx1, hx2, hy1, hy2⟩
      push_cast at hy2
      rcases le_or_lt p.2 ((y0 : ℚ) + (h1 : ℚ)) with hsp | hsp
      · obtain ⟨e, he, hpe⟩ := hc1p.mp ⟨hx1, hx2, hy1, hsp⟩
        exact ⟨e, List.mem_append_left _ he, hpe⟩
      · obtain ⟨e, he, hpe⟩ := hc2p.mp
          (by push_cast; refine ⟨hx1, hx2, le_of_lt hsp, ?_⟩; linarith)
        exact ⟨e, List.mem_append_right _ he, hpe⟩
    · rintro ⟨e, he, hpe⟩
      rcases List.mem_append.mp he with he | he
      · obtain ⟨ha, hb, hcc, hdd⟩ := hc1p.mpr ⟨e, he, hpe⟩
        push_cast at ha hb hcc hdd ⊢
        refine ⟨ha, hb, hcc, by linarith⟩
      · obtain ⟨ha, hb, hcc, hdd⟩ := hc2p.mpr ⟨e, he, hpe⟩
        push_cast at ha hb hcc hdd ⊢
        refine ⟨ha, hb, by linarith, by linarith⟩
  · rw [disjointInteriors, List.pairwise_append]
    refine ⟨hd1, hd2, ?_⟩
    intro a ha b hb p hab
    obtain ⟨hpa, hpb⟩ := hab
    have hia := hi1 a ha
    have hib := hi2 b hb
    simp only [rectInside] at hia hib
    simp only [memIntr] at hpa hpb
    obtain ⟨-, -, -, ha2, -, -⟩ := hia
    obtain ⟨-, -, hb1, -, -, -⟩ := hib
    obtain ⟨-, -, -, hpa2⟩ := hpa
    obtain ⟨-, -, hpb1, -⟩ := hpb
    have ha2' : (a.1.y : ℚ) + a.1.h ≤ (y0 : ℚ) + h1 := by exact_mod_cast ha2
    have hb1' : (y0 : ℚ) + h1 ≤ (b.1.y : ℚ) := by exact_mod_cast hb1
    push_cast at hpa2 hpb1
    linarith
  · intro e he
    rcases List.mem_append.mp he with he | he
    · have := hi1 e he
      simp only [rectInside] at this ⊢
      omega
    · have := hi2 e he
      simp only [rectInside] at this ⊢
      omega

theorem tilesSegV_concat (l1 l2 : List Entry) (iniX x w2 yy hh : Int)
    (hseg : tilesSegV l1 iniX x yy hh) (hx : iniX ≤ x)
    (h2 : tiles l2 ⟨x, yy, w2, hh⟩) (hw2 : 0 ≤ w2) :
    tiles (l1 ++ l2) ⟨iniX, yy, x + w2 - iniX, hh⟩ := by
  rcases hseg with ⟨hnil, hxi⟩ | ht1
  · rw [hxi] at h2
    rw [hnil, List.nil_append, hxi]
    have he : iniX + w2 - iniX = w2 := by ring
    rw [he]
    exact h2
  · have h' := tiles_append_v l1 l2 iniX yy (x - iniX) w2 hh ht1
      (by
        have he2 : iniX + (x - iniX) = x := by ring
        rw [he2]
        exact h2)
      (by omega) hw2
    have he : x - iniX + w2 = x + w2 - iniX := by ring
    rw [he] at h'
    exact h'

theorem tilesSegH_concat (l1 l2 : List Entry) (iniY y h2 xx ww : Int)
    (hseg : tilesSegH l1 iniY y xx ww) (hy : iniY ≤ y)
    (ht2 : tiles l2 ⟨xx, y, ww, h2⟩) (hh2 : 0 ≤ h2) :
    tiles (l1 ++ l2) ⟨xx, iniY, ww, y + h2 - iniY⟩ := by
  rcases hseg with ⟨hnil, hyi⟩ | ht1
  · rw [hyi] at ht2
    rw [hnil, List.nil_append, hyi]
    have he : iniY + h2 - iniY = h2 := by ring
    rw [he]
    exact ht2
  · have h' := tiles_append_h l1 l2 xx iniY (y - iniY) h2 ww ht1
      (by
        have he2 : iniY + (y - iniY) = y := by ring
        rw [he2]
        exact ht2)
      (by omega) hh2
    have he : y - iniY + h2 = y + h2 - iniY := by ring
    rw [he] at h'
    exact h'

theorem ediv_mul_le_self (a S : Int) (hS : 0 < S) : a / S * S ≤ a := by
  have h1 : 0 ≤ a % S := Int.emod_nonneg a (ne_of_gt hS)
  have h2 : S * (a / S) + a % S = a := Int.ediv_add_emod a S
  have h3 : a / S * S = S * (a / S) := mul_comm _ _
  linarith

theorem genLoopV_tiles (S yy hh ww iniX : Int) (subs : List ATree)
    (rec : (s : ATree) → s ∈ subs → Rect → Option (List Entry))
    (hS : 0 < S) (hww : 0 ≤ ww) (hhh : 0 ≤ hh)
    (hwf : ∀ s ∈ subs, wfSizes s = true)
    (hrec : ∀ (s : ATree) (hs : s ∈ subs) (r' : Rect), 0 ≤ r'.w → 0 ≤ r'.h →
      0 < s.data_size →
      ∃ l, rec s hs r' = some l ∧ tiles l r' ∧ l.length = posLeafCount s)
    (hrec0 : ∀ (s : ATree) (hs : s ∈ subs) (r' : Rect), s.data_size = 0 →
      rec s hs r' = some []) :
    ∀ (L : List {s : ATree // s ∈ subs}) (x : Int) (res : List Entry)
      (lastT : Option ({s : ATree // s ∈ subs} × Nat × Int)),
      L ≠ [] → iniX ≤ x →
      (x - iniX) * S ≤ (S - (L.map fun u => u.val.data_size).sum) * ww →
      tilesSegV res iniX x yy hh →
      lastInvV subs iniX yy hh lastT res x →
      (lastT = none → ∃ u ∈ L, 0 < u.val.data_size) →
      ∃ out, genLoopV S yy hh ww iniX subs rec L x res lastT = some out ∧
        tiles out ⟨iniX, yy, ww, hh⟩ ∧
        out.length = res.length + (L.map fun u => posLeafCount u.val).sum := by
  intro L
  induction L with
  | nil => intro x res lastT hne _ _ _ _ _; exact absurd rfl hne
  | cons s L ih =>
    intro x res lastT _ hx hHx hseg hlast hposs
    have hs0 : 0 ≤ s.val.data_size := wfSizes_nonneg _ (hwf s.val s.property)
    cases L with
    | nil =>
      simp only [List.map_cons, List.map_nil, List.sum_cons, List.sum_nil,
        add_zero] at hHx
      have hxw : x - iniX ≤ ww := by
        have h1 : (S - s.val.data_size) * ww ≤ S * ww := by nlinarith
        have h2 : (x - iniX) * S ≤ ww * S := by
          calc (x - iniX) * S ≤ (S - s.val.data_size) * ww := hHx
            _ ≤ S * ww := h1
            _ = ww * S := mul_comm _ _
        exact Int.le_of_mul_le_mul_right h2 hS
      have hlw : (0 : Int) ≤ ww - x + iniX := by omega
      simp only [genLoopV]
      rcases lt_or_eq_of_le hs0 with hpos | hzero
      · obtain ⟨sub, hsub, htl, hlen⟩ :=
          hrec s.val s.property ⟨x, yy, ww - x + iniX, hh⟩ hlw hhh hpos
        rw [hsub]
        have hsubne : sub ≠ [] := by
          intro hemp
          rw [hemp] at hlen
          have := posLeafCount_pos s.val (hwf s.val s.property) hpos
          simp at hlen
          omega
        have hie : sub.isEmpty = false := by
          cases sub with
          | nil => exact absurd rfl hsubne
          | cons a l => rfl
        simp only [Option.bind_eq_bind, Option.some_bind, hie, Bool.false_eq_true,
          if_false]
        rw [hsub]
        simp only [Option.some_bind]
        have htake : (res ++ sub).take ((res ++ sub).length - sub.length) = res := by
          rw [List.length_append, Nat.add_sub_cancel]
          exact List.take_left res sub
        rw [htake]
        refine ⟨res ++ sub, rfl, ?_, ?_⟩
        · have h' := tilesSegV_concat res sub iniX x (ww - x + iniX) yy hh hseg hx htl hlw
          have he : x + (ww - x + iniX) - iniX = ww := by ring
          rw [he] at h'
          exact h'
        · rw [List.length_append, hlen]
          simp
      · have hz : s.val.data_size = 0 := hzero.symm
        rw [hrec0 s.val s.property _ hz]
        cases lastT with
        | none =>
          exfalso
          obtain ⟨u, hu, hupos⟩ := hposs rfl
          rw [List.mem_singleton] at hu
          rw [hu] at hupos
          omega
        | some pr =>
          obtain ⟨lt, cnt, sx⟩ := pr
          obtain ⟨hltpos, hsx1, hsx2, hcnt, res₀, sub₁, hres, hlen₁, hseg₀⟩ := hlast
          have hlw2 : (0 : Int) ≤ ww - sx + iniX := by omega
          obtain ⟨sub2, hsub2, htl2, hlen2⟩ :=
            hrec lt.val lt.property ⟨sx, yy, ww - sx + iniX, hh⟩ hlw2 hhh hltpos
          have htake : res.take (res.length - cnt) = res₀ := by
            rw [hres, List.length_append, hlen₁, Nat.add_sub_cancel]
            exact List.take_left res₀ sub₁
          simp only [Option.bind_eq_bind, Option.some_bind, List.append_nil,
            List.isEmpty_nil, if_true, hsub2, htake]
          refine ⟨res₀ ++ sub2, rfl, ?_, ?_⟩
          · have h' := tilesSegV_concat res₀ sub2 iniX sx (ww - sx + iniX) yy hh
              hseg₀ hsx1 htl2 hlw2
            have he : sx + (ww - sx + iniX) - iniX = ww := by ring
            rw [he] at h'
            exact h'
          · rw [List.length_append, hlen2, ← hcnt]
            have hplz : posLeafCount s.val = 0 :=
              posLeafCount_zero s.val (hwf s.val s.property) hz
            rw [hres, List.length_append, hlen₁]
            simp [hplz]
    | cons s2 rest =>
      simp only [genLoopV]
      simp only [List.map_cons, List.sum_cons] at hHx
      have hlw : (0 : Int) ≤ s.val.data_size * ww / S :=
        Int.ediv_nonneg (mul_nonneg hs0 hww) (le_of_lt hS)
      have hlwS : (s.val.data_size * ww / S) * S ≤ s.val.data_size * ww :=
        ediv_mul_le_self _ _ hS
      rcases lt_or_eq_of_le hs0 with hpos | hzero
      · obtain ⟨sub, hsub, htl, hlen⟩ :=
          hrec s.val s.property ⟨x, yy, s.val.data_size * ww / S, hh⟩ hlw hhh hpos
        rw [hsub]
        have hsubne : sub ≠ [] := by
          intro hemp
          rw [hemp] at hlen
          have := posLeafCount_pos s.val (hwf s.val s.property) hpos
          simp at hlen
          omega
        have hie : sub.isEmpty = false := by
          cases sub with
          | nil => exact absurd rfl hsubne
          | cons a l => rfl
        simp only [Option.bind_eq_bind, Option.some_bind, hie, Bool.false_eq_true,
          if_false]
        have hseg' : tilesSegV (res ++ sub) iniX (x + s.val.data_size * ww / S) yy hh :=
          Or.inr (tilesSegV_concat res sub iniX x (s.val.data_size * ww / S) yy hh
            hseg hx htl hlw)
        obtain ⟨out, hout, htls, hlnn⟩ := ih (x + s.val.data_size * ww / S)
          (res ++ sub) (some (s, sub.length, x))
          (by simp)
          (by omega)
          (by
            simp only [List.map_cons, List.sum_cons]
            have e1 : (x + s.val.data_size * ww / S - iniX) * S
                = (x - iniX) * S + (s.val.data_size * ww / S) * S := by ring
            have e2 : (S - (s.val.data_size + (s2.val.data_size +
                  (rest.map fun u => u.val.data_size).sum))) * ww
                  + s.val.data_size * ww
                = (S - (s2.val.data_size +
                  (rest.map fun u => u.val.data_size).sum)) * ww := by
              ring
            linarith)
          hseg'
          (by exact ⟨hpos, hx, by omega, hlen, res, sub, rfl, rfl, hseg⟩)
          (by intro habs; exact absurd habs (by simp))
        refine ⟨out, hout, htls, ?_⟩
        rw [hlnn, List.length_append, hlen]
        simp only [List.map_cons, List.sum_cons]
        omega
      · have hz : s.val.data_size = 0 := hzero.symm
        rw [hrec0 s.val s.property _ hz]
        simp only [Option.bind_eq_bind, Option.some_bind, List.append_nil,
          List.isEmpty_nil, if_true]
        have hlw0 : s.val.data_size * ww / S = 0 := by rw [hz]; simp
        rw [hlw0, add_zero]
        obtain ⟨out, hout, htls, hlnn⟩ := ih x res lastT (by simp) hx
          (by rw [hz] at hHx; simpa using hHx)
          hseg hlast
          (by
            intro habs
            obtain ⟨u, hu, hupos⟩ := hposs habs
            rcases List.mem_cons.mp hu with rfl | hu2
            · omega
            · exact ⟨u, hu2, hupos⟩)
        refine ⟨out, hout, htls, ?_⟩
        rw [hlnn]
        simp only [List.map_cons, List.sum_cons,
          posLeafCount_zero s.val (hwf s.val s.property) hz, zero_add]

theorem genLoopH_tiles (S xx ww hh iniY : Int) (subs : List ATree)
    (rec : (s : ATree) → s ∈ subs → Rect → Option (List Entry))
    (hS : 0 < S) (hww : 0 ≤ ww) (hhh : 0 ≤ hh)
    (hwf : ∀ s ∈ subs, wfSizes s = true)
    (hrec : ∀ (s : ATree) (hs : s ∈ subs) (r' : Rect), 0 ≤ r'.w → 0 ≤ r'.h →
      0 < s.data_size →
      ∃ l, rec s hs r' = some l ∧ tiles l r' ∧ l.length = posLeafCount s)
    (hrec0 : ∀ (s : ATree) (hs : s ∈ subs) (r' : Rect), s.data_size = 0 →
      rec s hs r' = some []) :
    ∀ (L : List {s : ATree // s ∈ subs}) (y : Int) (res : List Entry)
      (lastT : Option ({s : ATree // s ∈ subs} × Nat × Int)),
      L ≠ [] → iniY ≤ y →
      (y - iniY) * S ≤ (S - (L.map fun u => u.val.data_size).sum) * hh →
      tilesSegH res iniY y xx ww →
      lastInvH subs iniY xx ww lastT res y →
      (lastT = none → ∃ u ∈ L, 0 < u.val.data_size) →
      ∃ out, genLoopH S xx ww hh iniY subs rec L y res lastT = some out ∧
        tiles out ⟨xx, iniY, ww, hh⟩ ∧
        out.length = res.length + (L.map fun u => posLeafCount u.val).sum := by
  intro L
  induction L with
  | nil => intro y res lastT hne _ _ _ _ _; exact absurd rfl hne
  | cons s L ih =>
    intro y res lastT _ hy hHy hseg hlast hposs
    have hs0 : 0 ≤ s.val.data_size := wfSizes_nonneg _ (hwf s.val s.property)
    cases L with
    | nil =>
      simp only [List.map_cons, List.map_nil, List.sum_cons, List.sum_nil,
        add_zero] at hHy
      have hyw : y - iniY ≤ hh := by
        have h1 : (S - s.val.data_size) * hh ≤ S * hh := by nlinarith
        have h2 : (y - iniY) * S ≤ hh * S := by
          calc (y - iniY) * S ≤ (S - s.val.data_size) * hh := hHy
            _ ≤ S * hh := h1
            _ = hh * S := mul_comm _ _
        exact Int.le_of_mul_le_mul_right h2 hS
      have hlh : (0 : Int) ≤ hh - y + iniY := by omega
      simp only [genLoopH]
      rcases lt_or_eq_of_le hs0 with hpos | hzero
      · obtain ⟨sub, hsub, htl, hlen⟩ :=
          hrec s.val s.property ⟨xx, y, ww, hh - y + iniY⟩ hww hlh hpos
        rw [hsub]
        have hsubne : sub ≠ [] := by
          intro hemp
          rw [hemp] at hlen
          have := posLeafCount_pos s.val (hwf s.val s.property) hpos
          simp at hlen
          omega
        have hie : sub.isEmpty = false := by
          cases sub with
          | nil => exact absurd rfl hsubne
          | cons a l => rfl
        simp only [Option.bind_eq_bind, Option.some_bind, hie, Bool.false_eq_true,
          if_false]
        rw [hsub]
        simp only [Option.some_bind]
        have htake : (res ++ sub).take ((res ++ sub).length - sub.length) = res := by
          rw [List.length_append, Nat.add_sub_cancel]
          exact List.take_left res sub
        rw [htake]
        refine ⟨res ++ sub, rfl, ?_, ?_⟩
        · have h' := tilesSegH_concat res sub iniY y (hh - y + iniY) xx ww hseg hy htl hlh
          have he : y + (hh - y + iniY) - iniY = hh := by ring
          rw [he] at h'
          exact h'
        · rw [List.length_append, hlen]
          simp
      · have hz : s.val.data_size = 0 := hzero.symm
        rw [hrec0 s.val s.property _ hz]
        cases lastT with
        | none =>
          exfalso
          obtain ⟨u, hu, hupos⟩ := hposs rfl
          rw [List.mem_singleton] at hu
          rw [hu] at hupos
          omega
        | some pr =>
          obtain ⟨lt, cnt, sy⟩ := pr
          obtain ⟨hltpos, hsy1, hsy2, hcnt, res₀, sub₁, hres, hlen₁, hseg₀⟩ := hlast
          have hlh2 : (0 : Int) ≤ hh - sy + iniY := by omega
          obtain ⟨sub2, hsub2, htl2, hlen2⟩ :=
            hrec lt.val lt.property ⟨xx, sy, ww, hh - sy + iniY⟩ hww hlh2 hltpos
          have htake : res.take (res.length - cnt) = res₀ := by
            rw [hres, List.length_append, hlen₁, Nat.add_sub_cancel]
            exact List.take_left res₀ sub₁
          simp only [Option.bind_eq_bind, Option.some_bind, List.append_nil,
            List.isEmpty_nil, if_true, hsub2, htake]
          refine ⟨res₀ ++ sub2, rfl, ?_, ?_⟩
          · have h' := tilesSegH_concat res₀ sub2 iniY sy (hh - sy + iniY) xx ww
              hseg₀ hsy1 htl2 hlh2
            have he : sy + (hh - sy + iniY) - iniY = hh := by ring
            rw [he] at h'
            exact h'
          · rw [List.length_append, hlen2, ← hcnt]
            have hplz : posLeafCount s.val = 0 :=
              posLeafCount_zero s.val (hwf s.val s.property) hz
            rw [hres, List.length_append, hlen₁]
            simp [hplz]
    | cons s2 rest =>
      simp only [genLoopH]
      simp only [List.map_cons, List.sum_cons] at hHy
      have hlh : (0 : Int) ≤ s.val.data_size * hh / S :=
        Int.ediv_nonneg (mul_nonneg hs0 hhh) (le_of_lt hS)
      have hlhS : (s.val.data_size * hh / S) * S ≤ s.val.data_size * hh :=
        ediv_mul_le_self _ _ hS
      rcases lt_or_eq_of_le hs0 with hpos | hzero
      · obtain ⟨sub, hsub, htl, hlen⟩ :=
          hrec s.val s.property ⟨xx, y, ww, s.val.data_size * hh / S⟩ hww hlh hpos
        rw [hsub]
        have hsubne : sub ≠ [] := by
          intro hemp
          rw [hemp] at hlen
          have := posLeafCount_pos s.val (hwf s.val s.property) hpos
          simp at hlen
          omega
        have hie : sub.isEmpty = false := by
          cases sub with
          | nil => exact absurd rfl hsubne
          | cons a l => rfl
        simp only [Option.bind_eq_bind, Option.some_bind, hie, Bool.false_eq_true,
          if_false]
        have hseg' : tilesSegH (res ++ sub) iniY (y + s.val.data_size * hh / S) xx ww :=
          Or.inr (tilesSegH_concat res sub iniY y (s.val.data_size * hh / S) xx ww
            hseg hy htl hlh)
        obtain ⟨out, hout, htls, hlnn⟩ := ih (y + s.val.data_size * hh / S)
          (res ++ sub) (some (s, sub.length, y))
          (by simp)
          (by omega)
          (by
            simp only [List.map_cons, List.sum_cons]
            have e1 : (y + s.val.data_size * hh / S - iniY) * S
                = (y - iniY) * S + (s.val.data_size * hh / S) * S := by ring
            have e2 : (S - (s.val.data_size + (s2.val.data_size +
                  (rest.map fun u => u.val.data_size).sum))) * hh
                  + s.val.data_size * hh
                = (S - (s2.val.data_size +
                  (rest.map fun u => u.val.data_size).sum)) * hh := by
              ring
            linarith)
          hseg'
          (by exact ⟨hpos, hy, by omega, hlen, res, sub, rfl, rfl, hseg⟩)
          (by intro habs; exact absurd habs (by simp))
        refine ⟨out, hout, htls, ?_⟩
        rw [hlnn, List.length_append, hlen]
        simp only [List.map_cons, List.sum_cons]
        omega
      · have hz : s.val.data_size = 0 := hzero.symm
        rw [hrec0 s.val s.property _ hz]
        simp only [Option.bind_eq_bind, Option.some_bind, List.append_nil,
          List.isEmpty_nil, if_true]
        have hlh0 : s.val.data_size * hh / S = 0 := by rw [hz]; simp
        rw [hlh0, add_zero]
        obtain ⟨out, hout, htls, hlnn⟩ := ih y res lastT (by simp) hy
          (by rw [hz] at hHy; simpa using hHy)
          hseg hlast
          (by
            intro habs
            obtain ⟨u, hu, hupos⟩ := hposs habs
            rcases List.mem_cons.mp hu with rfl | hu2
            · omega
            · exact ⟨u, hu2, hupos⟩)
        refine ⟨out, hout, htls, ?_⟩
        rw [hlnn]
        simp only [List.map_cons, List.sum_cons,
          posLeafCount_zero s.val (hwf s.val s.property) hz, zero_add]

theorem gen_tiles : ∀ (t : ATree), wfSizes t = true → 0 < t.data_size →
    ∀ (r : Rect), 0 ≤ r.w → 0 ≤ r.h →
    ∃ l, generate_treemap t r = some l ∧ tiles l r ∧ l.length = posLeafCount t := by
  intro t
  induction t using atree_ind with
  | step t ih =>
    intro hwf hpos r hw hh
    cases t with
    | mk root subs d c ps =>
      obtain ⟨h1, h2, h3⟩ := (wfSizes_mk_iff root subs d c ps).mp hwf
      simp only [data_size_mk] at hpos
      simp only [subtrees_mk] at ih
      rw [generate_treemap]
      simp only [data_size_mk, subtrees_mk, colour_mk]
      rw [if_neg (by omega)]
      cases subs with
      | nil =>
        rw [if_pos (List.isEmpty_nil : ([] : List ATree).isEmpty = true)]
        refine ⟨[(r, c)], rfl, tiles_single r c hw hh, ?_⟩
        rw [posLeafCount_mk_nil, if_pos hpos]
        rfl
      | cons s0 rest =>
        rw [if_neg (by simp)]
        have hd : d = sizesSum (s0 :: rest) := h2 (by simp)
        have hsum : ((s0 :: rest).attach.map fun u => u.val.data_size).sum = d := by
          rw [attach_map_sum_int, hd]
          rfl
        have hcnt : ((s0 :: rest).attach.map fun u => posLeafCount u.val).sum
            = posLeafCount (ATree.mk root (s0 :: rest) d c ps) := by
          rw [attach_map_sum_nat, posLeafCount_mk_cons]
        have hrec : ∀ (s : ATree) (hs : s ∈ (s0 :: rest)) (r' : Rect),
            0 ≤ r'.w → 0 ≤ r'.h → 0 < s.data_size →
            ∃ l, generate_treemap s r' = some l ∧ tiles l r' ∧
              l.length = posLeafCount s := by
          intro s hs r' hw' hh' hp'
          exact ih s hs (h3 s hs) hp' r' hw' hh'
        have hrec0 : ∀ (s : ATree) (hs : s ∈ (s0 :: rest)) (r' : Rect),
            s.data_size = 0 → generate_treemap s r' = some [] :=
          fun s _ r' hz => gen_zero s r' hz
        have hne : (s0 :: rest).attach ≠ [] := by simp
        have hposmem : ∃ u ∈ (s0 :: rest).attach, 0 < u.val.data_size := by
          have hex : ∃ s ∈ (s0 :: rest), 0 < s.data_size := by
            by_contra hno
            push_neg at hno
            have hsumle : sizesSum (s0 :: rest)
                ≤ ((s0 :: rest).map (fun _ => (0 : Int))).sum :=
              List.sum_le_sum (fun u hu => hno u hu)
            simp only [List.map_const', List.sum_replicate, smul_zero] at hsumle
            omega
          obtain ⟨s, hs, hp'⟩ := hex
          exact ⟨⟨s, hs⟩, List.mem_attach _ _, hp'⟩
        by_cases hwh : r.w > r.h
        · rw [if_pos hwh]
          obtain ⟨out, hout, htls, hlen⟩ := genLoopV_tiles d r.y r.h r.w r.x
            (s0 :: rest) (fun s _ r' => generate_treemap s r') hpos hw hh
            h3 hrec hrec0 (s0 :: rest).attach r.x [] none hne (le_refl _)
            (by rw [hsum]; simp)
            (Or.inl ⟨rfl, rfl⟩)
            (by exact trivial)
            (fun _ => hposmem)
          refine ⟨out, hout, htls, ?_⟩
          rw [hlen, hcnt]
          simp
        · rw [if_neg hwh]
          obtain ⟨out, hout, htls, hlen⟩ := genLoopH_tiles d r.x r.w r.h r.y
            (s0 :: rest) (fun s _ r' => generate_treemap s r') hpos hw hh
            h3 hrec hrec0 (s0 :: rest).attach r.y [] none hne (le_refl _)
            (by rw [hsum]; simp)
            (Or.inl ⟨rfl, rfl⟩)
            (by exact trivial)
            (fun _ => hposmem)
          refine ⟨out, hout, htls, ?_⟩
          rw [hlen, hcnt]
          simp

/-- **C2** (amended): for every tree satisfying the size invariants with
strictly positive total weight, and every rectangle with non-negative width
and height, `generate_treemap` succeeds and its rectangles exactly tile the
input rectangle — a point lies in the rectangle iff it lies in one of the
entries, the interiors are pairwise disjoint, and each entry lies inside
the input rectangle — with exactly one entry per strictly-positive-weight
leaf.  The unamended claim fails for well-formed weight-zero trees (see the
counterexample): there the output is empty and covers nothing. -/
theorem c2_tiling (t : ATree) (r : Rect) (hwf : wfSizes t = true)
    (hpos : 0 < t.data_size) (hw : 0 ≤ r.w) (hh : 0 ≤ r.h) :
    ∃ l, generate_treemap t r = some l ∧ covers l r ∧ disjointInteriors l ∧
      (∀ e ∈ l, rectInside e.1 r) ∧ l.length = posLeafCount t := by
  obtain ⟨l, hgen, ⟨hc, hd, hi⟩, hlen⟩ := gen_tiles t hwf hpos r hw hh
  exact ⟨l, hgen, hc, hd, hi, hlen⟩

/-- Witness for **C2**: the amended theorem applied to concrete scenario 1
(three leaves of weights 10, 20, 30 over the rectangle `(0, 0, 100, 10)`),
with every hypothesis discharged on the concrete input. -/
theorem c2_tiling_witness :
    (wfSizes c2tree = true ∧ 0 < c2tree.data_size ∧
      0 ≤ (⟨0, 0, 100, 10⟩ : Rect).w ∧ 0 ≤ (⟨0, 0, 100, 10⟩ : Rect).h) ∧
    ∃ l, generate_treemap c2tree ⟨0, 0, 100, 10⟩ = some l ∧
      covers l ⟨0, 0, 100, 10⟩ ∧ disjointInteriors l ∧
      (∀ e ∈ l, rectInside e.1 ⟨0, 0, 100, 10⟩) ∧
      l.length = posLeafCount c2tree := by
  have hwf : wfSizes c2tree = true := by
    simp [wfSizes, c2tree, mkLeaf, init, sizesSum, setParentTop]
  have hpos : 0 < c2tree.data_size := by decide
  refine ⟨⟨hwf, hpos, by decide, by decide⟩, ?_⟩
  exact c2_tiling c2tree ⟨0, 0, 100, 10⟩ hwf hpos (by decide) (by decide)
